import Mathlib

/-!
# A verification development for the `lobster` limit order book engine

This file gives a shallow embedding of the core of the `lobster` order book
(`src/orderbook.rs`, `src/arena.rs`, `src/models.rs`) and proves the testable
properties of its specification against that embedding.

Modelling conventions:

* Machine integers (`u64` prices and quantities, `u128` ids, `usize` handles)
  are modelled as `Nat`.  All arithmetic performed by the source on reachable
  states is non-overflowing subtraction-after-comparison or bounded addition;
  the one place where an unsigned subtraction could underflow (`spread`) is
  the subject of a dedicated safety theorem.
* `Vec<T>` becomes `List T`.  `Vec::pop` pops the *last* element, so the
  arena's free list is modelled with its head as the stack top; `OrderArena::new`
  pushes `0, 1, …, capacity-1`, hence the model uses `(List.range cap).reverse`.
* `BTreeMap<u64, Vec<usize>>` becomes a price-sorted association list.
  The asks map is kept in ascending price order (the order `iter()` yields);
  the bids map is kept in *descending* price order, which is exactly the
  order `iter().rev()` yields, i.e. the order in which `match_with_bids`
  and `update_max_bid` traverse the bid side.  Both sides therefore store
  their levels in matching-priority order, best price first.
* `HashMap<u128, usize>` (the arena's id index) becomes an association list
  with insert-overwrite semantics; the source never iterates over it, so any
  canonical representation is faithful.
* Rust's indexing `self.orders[i]` panics when out of range; the model totalises
  it with a default (`arenaAt`).  The reachability invariant proved below shows
  every handle dereferenced by the engine is in bounds.
* `Trade.avg_price` is an `f64` equal to `Σ price·qty / filled_qty`; the model
  stores the exact numerator `avg_price_num = Σ price·qty` (the denominator is
  the `total_qty` field), which determines the floating point value.
-/

/-- `models.rs`: an order book side. -/
inductive Side where
  | Bid
  | Ask
deriving DecidableEq, Repr

/-- `models.rs`: a resting limit order (`LimitOrder { id, qty, price }`). -/
structure LimitOrder where
  id : Nat
  qty : Nat
  price : Nat
deriving DecidableEq, Repr

/-- `models.rs`: information on a single order fill. -/
structure FillMetadata where
  order_1 : Nat
  order_2 : Nat
  qty : Nat
  price : Nat
  taker_side : Side
  total_fill : Bool
deriving DecidableEq, Repr

/-- `models.rs`: a command (`OrderType`). -/
inductive OrderType where
  | Market (id : Nat) (side : Side) (qty : Nat)
  | Limit (id : Nat) (side : Side) (qty : Nat) (price : Nat)
  | Cancel (id : Nat)
deriving DecidableEq, Repr

/-- `models.rs`: an event resulting from the execution of an order. -/
inductive OrderEvent where
  | Unfilled (id : Nat)
  | Placed (id : Nat)
  | Canceled (id : Nat)
  | PartiallyFilled (id : Nat) (filled_qty : Nat) (fills : List FillMetadata)
  | Filled (id : Nat) (filled_qty : Nat) (fills : List FillMetadata)
deriving DecidableEq, Repr

/-- `models.rs`: a trade summary.  `avg_price_num` is the numerator
`Σ fill.price * fill.qty` of the source's f64 `avg_price`
(`avg_price = avg_price_num / total_qty`). -/
structure Trade where
  total_qty : Nat
  avg_price_num : Nat
  last_price : Nat
  last_qty : Nat
deriving DecidableEq, Repr

/-- `arena.rs`: the dense slot-reusing order store. -/
structure OrderArena where
  orders : List LimitOrder
  free : List Nat
  order_map : List (Nat × Nat)
deriving DecidableEq, Repr

/-- Association list lookup (first matching key), modelling `HashMap::get`. -/
def mapLookup : List (Nat × Nat) → Nat → Option Nat
  | [], _ => none
  | e :: rest, id => if e.1 = id then some e.2 else mapLookup rest id

/-- Removal of a key, modelling `HashMap::remove`'s effect on the map. -/
def mapErase (m : List (Nat × Nat)) (id : Nat) : List (Nat × Nat) :=
  m.filter (fun e => !(e.1 == id))

/-- Insert-overwrite, modelling `HashMap::insert`'s effect on the map. -/
def mapInsert (m : List (Nat × Nat)) (id v : Nat) : List (Nat × Nat) :=
  (id, v) :: mapErase m id

/-- Total read of an arena slot (`self.orders[h]`; in bounds on reachable states). -/
def arenaAt (a : OrderArena) (h : Nat) : LimitOrder :=
  a.orders.getD h ⟨0, 0, 0⟩

/-- `head_order.qty -= traded` via `index_mut`: overwrite the qty of slot `h`. -/
def setQty (a : OrderArena) (h q : Nat) : OrderArena :=
  { a with orders := a.orders.set h { arenaAt a h with qty := q } }

/-- `arena.rs` `OrderArena::new(capacity)`: pre-warmed slots, free list
`0,…,capacity-1` with the last pushed index on top of the stack. -/
def OrderArena.new (capacity : Nat) : OrderArena :=
  { orders := List.replicate capacity ⟨0, 0, 0⟩,
    free := (List.range capacity).reverse,
    order_map := [] }

/-- `arena.rs` `OrderArena::get`. -/
def OrderArena.get (a : OrderArena) (id : Nat) : Option (Nat × Nat) :=
  (mapLookup a.order_map id).map (fun i => ((arenaAt a i).price, i))

/-- `arena.rs` `OrderArena::insert`: pop a free slot if available, else append. -/
def OrderArena.insert (a : OrderArena) (id price qty : Nat) : OrderArena × Nat :=
  match a.free with
  | [] =>
    let index := a.orders.length
    ({ orders := a.orders ++ [⟨id, qty, price⟩],
       free := [],
       order_map := mapInsert a.order_map id index }, index)
  | idx :: rest =>
    ({ orders := a.orders.set idx ⟨id, qty, price⟩,
       free := rest,
       order_map := mapInsert a.order_map id idx }, idx)

/-- `arena.rs` `OrderArena::delete`: remove the id mapping; if the slot exists,
zero its qty and push the handle on the free list. -/
def OrderArena.delete (a : OrderArena) (id : Nat) : OrderArena × Bool :=
  match mapLookup a.order_map id with
  | none => (a, false)
  | some idx =>
    if idx < a.orders.length then
      ({ orders := a.orders.set idx { arenaAt a idx with qty := 0 },
         free := idx :: a.free,
         order_map := mapErase a.order_map id }, true)
    else
      ({ a with order_map := mapErase a.order_map id }, false)

/-- A book side: price levels in matching-priority order, each a FIFO of handles. -/
abbrev SideMap := List (Nat × List Nat)

/-- Priority order of ask levels: ascending price. -/
def askBefore (p q : Nat) : Bool := p < q

/-- Priority order of bid levels: descending price (`iter().rev()` order). -/
def bidBefore (p q : Nat) : Bool := q < p

/-- `iter().filter(|(_, q)| !q.is_empty()).next()` — the slow tracker recompute
(`update_min_ask` / `update_max_bid`), given the side in priority order. -/
def computeBest (m : SideMap) : Option Nat :=
  (m.find? (fun e => !e.2.isEmpty)).map Prod.fst

/-- `self.asks.entry(price).or_insert_with(Vec::new).push(index)` on the sorted
representation: push onto the level at `price`, creating it in order if absent. -/
def insertHandle (bef : Nat → Nat → Bool) : SideMap → Nat → Nat → SideMap
  | [], p, h => [(p, [h])]
  | (q, l) :: rest, p, h =>
    if bef p q then (p, [h]) :: (q, l) :: rest
    else if p = q then (q, l ++ [h]) :: rest
    else (q, l) :: insertHandle bef rest p h

/-- Whether the map has a level keyed `p` (`get_mut(&price).is_some()`). -/
def containsKey (m : SideMap) (p : Nat) : Bool := m.any (fun e => e.1 == p)

/-- Remove the first occurrence of handle `h` from the level keyed `p`
(`queue.iter().position(..)` + `queue.remove(i)`). -/
def eraseHandle (m : SideMap) (p h : Nat) : SideMap :=
  m.map (fun e => if e.1 = p then (e.1, e.2.erase h) else e)

/-- The queue at price `p` (empty if the level is absent). -/
def queueAt (m : SideMap) (p : Nat) : List Nat :=
  ((m.find? (fun e => e.1 == p)).map Prod.snd).getD []

/-- All handles resting in a side, in priority order. -/
def handlesOf (m : SideMap) : List Nat := (m.map Prod.snd).flatten

/-- `orderbook.rs`: the order book state. -/
structure OrderBook where
  last_trade : Option Trade
  traded_volume : Nat
  min_ask : Option Nat
  max_bid : Option Nat
  asks : SideMap
  bids : SideMap
  arena : OrderArena
  default_queue_capacity : Nat
  track_stats : Bool
deriving DecidableEq, Repr

/-- `OrderBook::new` (queue capacity is an allocation hint with no semantic
content beyond being stored). -/
def OrderBook.new (arena_capacity queue_capacity : Nat) (track : Bool) : OrderBook :=
  { last_trade := none,
    traded_volume := 0,
    min_ask := none,
    max_bid := none,
    asks := [],
    bids := [],
    arena := OrderArena.new arena_capacity,
    default_queue_capacity := queue_capacity,
    track_stats := track }

/-- `OrderBook::default()`. -/
def OrderBook.default : OrderBook := OrderBook.new 10000 10 false

/-- `OrderBook::spread`. -/
def OrderBook.spread (b : OrderBook) : Option Nat :=
  match b.max_bid, b.min_ask with
  | some v, some a => some (a - v)
  | _, _ => none

/-- Result of `process_queue`: the drained queue, updated arena, the fills
pushed (in order), and the filled quantity returned. -/
structure PQResult where
  queue : List Nat
  arena : OrderArena
  fills : List FillMetadata
  filled : Nat
deriving Repr

/-- `orderbook.rs` `process_queue`.  The source walks the queue with an index,
marks fully-consumed (and stale zero-qty) entries, and afterwards drains the
marked prefix `0..filled_index+1`; since consumption happens strictly
front-to-back, the marked entries are exactly an initial segment, so dropping
them on the fly as done here produces the same final queue. -/
def processQueue (arena : OrderArena) (q : List Nat) (remainingQty id : Nat)
    (side : Side) : PQResult :=
  match q with
  | [] => ⟨[], arena, [], 0⟩
  | h :: rest =>
    if remainingQty = 0 then ⟨h :: rest, arena, [], 0⟩
    else
      let ord := arenaAt arena h
      if ord.qty = 0 then
        processQueue arena rest remainingQty id side
      else if ord.qty ≤ remainingQty then
        let r := processQueue (setQty arena h 0) rest (remainingQty - ord.qty) id side
        ⟨r.queue, r.arena, ⟨id, ord.id, ord.qty, ord.price, side, true⟩ :: r.fills,
         ord.qty + r.filled⟩
      else
        ⟨h :: rest, setQty arena h (ord.qty - remainingQty),
         [⟨id, ord.id, remainingQty, ord.price, side, false⟩], remainingQty⟩

/-- The loop break test on a level price: a limit taker stops when the current
opposite price is worse than the limit (`lp < *ask_price` for a buy,
`lp > *bid_price` for a sell); with each side stored in priority order both
read as `bef lp p`. -/
def stopHere (bef : Nat → Nat → Bool) (lp : Option Nat) (p : Nat) : Bool :=
  match lp with
  | some l => bef l p
  | none => false

/-- Result of the matching walk over one side. -/
structure MLResult where
  levels : SideMap
  arena : OrderArena
  fills : List FillMetadata
  remaining : Nat
  tracker : Option Nat
deriving Repr

/-- The common loop body of `match_with_asks` / `match_with_bids`: walk the
levels of the opposite side in priority order; skip empty queues; refresh the
top-of-book tracker past drained queues (`update_bid_ask` flag); stop at a
worse-than-limit price or at zero remaining quantity; otherwise process the
queue.  The threaded `tracker` value is overwritten by the full recompute
(`update_min_ask` / `update_max_bid`) the source performs after the loop, and
is returned here only for fidelity. -/
def matchLoop (bef : Nat → Nat → Bool) (arena : OrderArena) (levels : SideMap)
    (remainingQty id : Nat) (lp : Option Nat) (takerSide : Side)
    (updateFlag : Bool) (tracker : Option Nat) : MLResult :=
  match levels with
  | [] => ⟨[], arena, [], remainingQty, tracker⟩
  | (p, q) :: rest =>
    if q.isEmpty then
      let r := matchLoop bef arena rest remainingQty id lp takerSide updateFlag tracker
      ⟨(p, q) :: r.levels, r.arena, r.fills, r.remaining, r.tracker⟩
    else
      let doSet := updateFlag || tracker.isNone
      let tracker' := if doSet then some p else tracker
      let flag1 := if doSet then false else updateFlag
      if stopHere bef lp p then
        ⟨(p, q) :: rest, arena, [], remainingQty, tracker'⟩
      else if remainingQty = 0 then
        ⟨(p, q) :: rest, arena, [], remainingQty, tracker'⟩
      else
        let pr := processQueue arena q remainingQty id takerSide
        let flag2 := if pr.queue.isEmpty then true else flag1
        let r := matchLoop bef pr.arena rest (remainingQty - pr.filled) id lp
          takerSide flag2 tracker'
        ⟨(p, pr.queue) :: r.levels, r.arena, pr.fills ++ r.fills, r.remaining, r.tracker⟩

/-- `orderbook.rs` `match_with_asks` (taker side `Bid`), including the final
`update_min_ask` recompute. -/
def OrderBook.matchWithAsks (b : OrderBook) (id qty : Nat) (lp : Option Nat) :
    OrderBook × List FillMetadata × Nat :=
  let r := matchLoop askBefore b.arena b.asks qty id lp Side.Bid false b.min_ask
  ({ b with asks := r.levels, arena := r.arena, min_ask := computeBest r.levels },
   r.fills, r.remaining)

/-- `orderbook.rs` `match_with_bids` (taker side `Ask`), including the final
`update_max_bid` recompute. -/
def OrderBook.matchWithBids (b : OrderBook) (id qty : Nat) (lp : Option Nat) :
    OrderBook × List FillMetadata × Nat :=
  let r := matchLoop bidBefore b.arena b.bids qty id lp Side.Ask false b.max_bid
  ({ b with bids := r.levels, arena := r.arena, max_bid := computeBest r.levels },
   r.fills, r.remaining)

/-- Result of `market` / `limit`: state plus the `(fills, partial, filled_qty)`
triple the source returns. -/
structure ExecResult where
  book : OrderBook
  fills : List FillMetadata
  isPartial : Bool
  filled : Nat

/-- `orderbook.rs` `market`: match against the opposite side, never rest. -/
def OrderBook.market (b : OrderBook) (id : Nat) (side : Side) (qty : Nat) : ExecResult :=
  match side with
  | Side.Bid =>
    let m := b.matchWithAsks id qty none
    ⟨m.1, m.2.1, decide (0 < m.2.2), qty - m.2.2⟩
  | Side.Ask =>
    let m := b.matchWithBids id qty none
    ⟨m.1, m.2.1, decide (0 < m.2.2), qty - m.2.2⟩

/-- `orderbook.rs` `limit`: match against the opposite side, then rest the
residue (if any) on the own side and raise/lower the own-side tracker.
The `Ask` arm mirrors the source's two-step `min_ask` update. -/
def OrderBook.limit (b : OrderBook) (id : Nat) (side : Side) (qty price : Nat) :
    ExecResult :=
  match side with
  | Side.Bid =>
    let m := b.matchWithAsks id qty (some price)
    if 0 < m.2.2 then
      let ai := m.1.arena.insert id price m.2.2
      ⟨{ m.1 with
         arena := ai.1,
         bids := insertHandle bidBefore m.1.bids price ai.2,
         max_bid := match m.1.max_bid with
           | none => some price
           | some v => if v < price then some price else some v },
       m.2.1, true, qty - m.2.2⟩
    else ⟨m.1, m.2.1, false, qty - m.2.2⟩
  | Side.Ask =>
    let m := b.matchWithBids id qty (some price)
    if 0 < m.2.2 then
      let ai := m.1.arena.insert id price m.2.2
      ⟨{ m.1 with
         arena := ai.1,
         asks := insertHandle askBefore m.1.asks price ai.2,
         min_ask := match (match m.1.min_ask with
             | some a => if price < a then some price else some a
             | none => none) with
           | none => some price
           | some a => if price < a then some price else some a },
       m.2.1, true, qty - m.2.2⟩
    else ⟨m.1, m.2.1, false, qty - m.2.2⟩

/-- `orderbook.rs` `cancel`: look up the id; remove the handle from whichever
side has a level at the resting price (probing both) and recompute that side's
tracker; finally delete from the arena.  Always "succeeds". -/
def OrderBook.cancel (b : OrderBook) (id : Nat) : OrderBook :=
  match b.arena.get id with
  | none => { b with arena := (b.arena.delete id).1 }
  | some (price, idx) =>
    let asks' := if containsKey b.asks price then eraseHandle b.asks price idx else b.asks
    let minAsk' := if containsKey b.asks price then computeBest asks' else b.min_ask
    let bids' := if containsKey b.bids price then eraseHandle b.bids price idx else b.bids
    let maxBid' := if containsKey b.bids price then computeBest bids' else b.max_bid
    { b with asks := asks', bids := bids', min_ask := minAsk', max_bid := maxBid',
             arena := ((b.arena).delete id).1 }

/-- `orderbook.rs` `_execute`: translate the command outcome into an event. -/
def OrderBook.executeInner (b : OrderBook) : OrderType → OrderBook × OrderEvent
  | OrderType.Market id side qty =>
    let r := b.market id side qty
    if r.fills.isEmpty then (r.book, OrderEvent.Unfilled id)
    else if r.isPartial then (r.book, OrderEvent.PartiallyFilled id r.filled r.fills)
    else (r.book, OrderEvent.Filled id r.filled r.fills)
  | OrderType.Limit id side qty price =>
    let r := b.limit id side qty price
    if r.fills.isEmpty then (r.book, OrderEvent.Placed id)
    else if r.isPartial then (r.book, OrderEvent.PartiallyFilled id r.filled r.fills)
    else (r.book, OrderEvent.Filled id r.filled r.fills)
  | OrderType.Cancel id => (b.cancel id, OrderEvent.Canceled id)

/-- `Σ fill.price * fill.qty` over a fills vector. -/
def sumPriceQty (fs : List FillMetadata) : Nat :=
  (fs.map (fun f => f.price * f.qty)).sum

/-- `fills.last().unwrap()` (the fills are non-empty where this is used). -/
def lastFill (fs : List FillMetadata) : FillMetadata :=
  fs.getLastD ⟨0, 0, 0, 0, Side.Bid, false⟩

/-- `orderbook.rs` `execute`: run `_execute`, then update the optional
statistics on `Filled` / `PartiallyFilled` events. -/
def OrderBook.execute (b : OrderBook) (cmd : OrderType) : OrderBook × OrderEvent :=
  let (b1, ev) := b.executeInner cmd
  if !b1.track_stats then (b1, ev)
  else
    match ev with
    | OrderEvent.Filled _ fq fs =>
      ({ b1 with traded_volume := b1.traded_volume + fq,
                 last_trade := some ⟨fq, sumPriceQty fs, (lastFill fs).price,
                                     (lastFill fs).qty⟩ }, ev)
    | OrderEvent.PartiallyFilled _ fq fs =>
      ({ b1 with traded_volume := b1.traded_volume + fq,
                 last_trade := some ⟨fq, sumPriceQty fs, (lastFill fs).price,
                                     (lastFill fs).qty⟩ }, ev)
    | _ => (b1, ev)

/-- Books reachable from a fresh book by executing commands (and toggling
stats tracking, which is part of the public interface). -/
inductive Reachable : OrderBook → Prop
  | init (cap qcap : Nat) (ts : Bool) : Reachable (OrderBook.new cap qcap ts)
  | step (b : OrderBook) (cmd : OrderType) : Reachable b → Reachable (b.execute cmd).1
  | track (b : OrderBook) (t : Bool) : Reachable b → Reachable { b with track_stats := t }

/-! ## Basic lemmas about the arena primitives -/

theorem setQty_orders_length (a : OrderArena) (h q : Nat) :
    (setQty a h q).orders.length = a.orders.length := by
  simp [setQty]

theorem setQty_free (a : OrderArena) (h q : Nat) : (setQty a h q).free = a.free := rfl

theorem setQty_order_map (a : OrderArena) (h q : Nat) :
    (setQty a h q).order_map = a.order_map := rfl

theorem arenaAt_setQty_ne (a : OrderArena) (h q h' : Nat) (hne : h' ≠ h) :
    arenaAt (setQty a h q) h' = arenaAt a h' := by
  simp [arenaAt, setQty, List.getD_eq_getElem?_getD, List.getElem?_set_ne (Ne.symm hne)]

theorem arenaAt_setQty_self (a : OrderArena) (h q : Nat) (hlt : h < a.orders.length) :
    arenaAt (setQty a h q) h = { arenaAt a h with qty := q } := by
  simp [arenaAt, setQty, List.getD_eq_getElem?_getD, List.getElem?_set_self hlt]

theorem arenaAt_setQty_id (a : OrderArena) (h q h' : Nat) :
    (arenaAt (setQty a h q) h').id = (arenaAt a h').id := by
  rcases eq_or_ne h' h with rfl | hne
  · rcases Nat.lt_or_ge h' a.orders.length with hlt | hge
    · rw [arenaAt_setQty_self a h' q hlt]
    · simp [arenaAt, setQty, List.set_eq_of_length_le hge]
  · rw [arenaAt_setQty_ne a h q h' hne]

theorem arenaAt_setQty_price (a : OrderArena) (h q h' : Nat) :
    (arenaAt (setQty a h q) h').price = (arenaAt a h').price := by
  rcases eq_or_ne h' h with rfl | hne
  · rcases Nat.lt_or_ge h' a.orders.length with hlt | hge
    · rw [arenaAt_setQty_self a h' q hlt]
    · simp [arenaAt, setQty, List.set_eq_of_length_le hge]
  · rw [arenaAt_setQty_ne a h q h' hne]

/-! ## Lemmas about `processQueue` -/

/-- Sum of the `qty` fields of a fills vector. -/
def fillsQty (fs : List FillMetadata) : Nat := (fs.map FillMetadata.qty).sum

theorem fillsQty_nil : fillsQty [] = 0 := rfl

theorem fillsQty_cons (f : FillMetadata) (fs : List FillMetadata) :
    fillsQty (f :: fs) = f.qty + fillsQty fs := by simp [fillsQty]

theorem fillsQty_append (fs gs : List FillMetadata) :
    fillsQty (fs ++ gs) = fillsQty fs + fillsQty gs := by simp [fillsQty]

theorem pq_arena_free (a : OrderArena) (q : List Nat) (rq id : Nat) (s : Side) :
    (processQueue a q rq id s).arena.free = a.free := by
  induction q generalizing a rq with
  | nil => rfl
  | cons h rest ih =>
    simp only [processQueue]
    split_ifs with h0 h1 h2
    · rfl
    · exact ih a rq
    · exact ih (setQty a h 0) (rq - (arenaAt a h).qty)
    · rfl

theorem pq_arena_map (a : OrderArena) (q : List Nat) (rq id : Nat) (s : Side) :
    (processQueue a q rq id s).arena.order_map = a.order_map := by
  induction q generalizing a rq with
  | nil => rfl
  | cons h rest ih =>
    simp only [processQueue]
    split_ifs with h0 h1 h2
    · rfl
    · exact ih a rq
    · exact ih (setQty a h 0) (rq - (arenaAt a h).qty)
    · rfl

theorem pq_arena_length (a : OrderArena) (q : List Nat) (rq id : Nat) (s : Side) :
    (processQueue a q rq id s).arena.orders.length = a.orders.length := by
  induction q generalizing a rq with
  | nil => rfl
  | cons h rest ih =>
    simp only [processQueue]
    split_ifs with h0 h1 h2
    · rfl
    · exact ih a rq
    · rw [ih (setQty a h 0) (rq - (arenaAt a h).qty), setQty_orders_length]
    · exact setQty_orders_length a h _

theorem pq_arena_id (a : OrderArena) (q : List Nat) (rq id : Nat) (s : Side) (h' : Nat) :
    (arenaAt (processQueue a q rq id s).arena h').id = (arenaAt a h').id := by
  induction q generalizing a rq with
  | nil => rfl
  | cons h rest ih =>
    simp only [processQueue]
    split_ifs with h0 h1 h2
    · rfl
    · exact ih a rq
    · rw [ih (setQty a h 0) (rq - (arenaAt a h).qty), arenaAt_setQty_id]
    · exact arenaAt_setQty_id a h _ h'

theorem pq_arena_price (a : OrderArena) (q : List Nat) (rq id : Nat) (s : Side) (h' : Nat) :
    (arenaAt (processQueue a q rq id s).arena h').price = (arenaAt a h').price := by
  induction q generalizing a rq with
  | nil => rfl
  | cons h rest ih =>
    simp only [processQueue]
    split_ifs with h0 h1 h2
    · rfl
    · exact ih a rq
    · rw [ih (setQty a h 0) (rq - (arenaAt a h).qty), arenaAt_setQty_price]
    · exact arenaAt_setQty_price a h _ h'

theorem pq_untouched (a : OrderArena) (q : List Nat) (rq id : Nat) (s : Side) (h' : Nat)
    (hmem : h' ∉ q) : arenaAt (processQueue a q rq id s).arena h' = arenaAt a h' := by
  induction q generalizing a rq with
  | nil => rfl
  | cons h rest ih =>
    have hne : h' ≠ h := fun he => hmem (he ▸ List.mem_cons_self h rest)
    have hrest : h' ∉ rest := fun hr => hmem (List.mem_cons_of_mem h hr)
    simp only [processQueue]
    split_ifs with h0 h1 h2
    · rfl
    · exact ih a rq hrest
    · rw [ih (setQty a h 0) (rq - (arenaAt a h).qty) hrest, arenaAt_setQty_ne a h 0 h' hne]
    · exact arenaAt_setQty_ne a h _ h' hne

theorem pq_suffix (a : OrderArena) (q : List Nat) (rq id : Nat) (s : Side) :
    (processQueue a q rq id s).queue <:+ q := by
  induction q generalizing a rq with
  | nil => exact List.nil_suffix
  | cons h rest ih =>
    simp only [processQueue]
    split_ifs with h0 h1 h2
    · exact List.suffix_refl _
    · exact (ih a rq).trans (List.suffix_cons h rest)
    · exact (ih (setQty a h 0) (rq - (arenaAt a h).qty)).trans (List.suffix_cons h rest)
    · exact List.suffix_refl _

theorem pq_filled_le (a : OrderArena) (q : List Nat) (rq id : Nat) (s : Side) :
    (processQueue a q rq id s).filled ≤ rq := by
  induction q generalizing a rq with
  | nil => exact Nat.zero_le rq
  | cons h rest ih =>
    simp only [processQueue]
    split_ifs with h0 h1 h2
    · exact Nat.zero_le rq
    · exact ih a rq
    · have := ih (setQty a h 0) (rq - (arenaAt a h).qty)
      dsimp only
      omega
    · exact Nat.le_refl rq

theorem pq_fills_sum (a : OrderArena) (q : List Nat) (rq id : Nat) (s : Side) :
    fillsQty (processQueue a q rq id s).fills = (processQueue a q rq id s).filled := by
  induction q generalizing a rq with
  | nil => rfl
  | cons h rest ih =>
    simp only [processQueue]
    split_ifs with h0 h1 h2
    · rfl
    · exact ih a rq
    · simp only [fillsQty_cons]
      rw [ih (setQty a h 0) (rq - (arenaAt a h).qty)]
    · simp [fillsQty]

theorem pq_empty_of_lt (a : OrderArena) (q : List Nat) (rq id : Nat) (s : Side)
    (hlt : (processQueue a q rq id s).filled < rq) : (processQueue a q rq id s).queue = [] := by
  induction q generalizing a rq with
  | nil => rfl
  | cons h rest ih =>
    simp only [processQueue] at hlt ⊢
    split_ifs with h0 h1 h2
    · rw [if_pos h0] at hlt; omega
    · rw [if_neg h0, if_pos h1] at hlt
      exact ih a rq hlt
    · rw [if_neg h0, if_neg h1, if_pos h2] at hlt
      refine ih (setQty a h 0) (rq - (arenaAt a h).qty) ?_
      simp only at hlt
      omega
    · rw [if_neg h0, if_neg h1, if_neg h2] at hlt
      simp only at hlt
      omega

theorem pq_live (a : OrderArena) (q : List Nat) (rq id : Nat) (s : Side) (P : Nat)
    (hnd : q.Nodup)
    (hlive : ∀ h ∈ q, h < a.orders.length ∧ 0 < (arenaAt a h).qty ∧ (arenaAt a h).price = P) :
    ∀ h ∈ (processQueue a q rq id s).queue,
      h < (processQueue a q rq id s).arena.orders.length ∧
      0 < (arenaAt (processQueue a q rq id s).arena h).qty ∧
      (arenaAt (processQueue a q rq id s).arena h).price = P := by
  induction q generalizing a rq with
  | nil => intro h hh; simp [processQueue] at hh
  | cons h rest ih =>
    have hh := hlive h (List.mem_cons_self h rest)
    have hrest : ∀ x ∈ rest, x < a.orders.length ∧ 0 < (arenaAt a x).qty ∧
        (arenaAt a x).price = P := fun x hx => hlive x (List.mem_cons_of_mem h hx)
    have hnotin : h ∉ rest := (List.nodup_cons.mp hnd).1
    have hndrest : rest.Nodup := (List.nodup_cons.mp hnd).2
    simp only [processQueue]
    split_ifs with h0 h1 h2
    · intro x hx
      dsimp only at hx ⊢
      exact hlive x hx
    · exact absurd h1 (by omega)
    · -- full consume of the head; the rest is live in the updated arena
      refine ih (setQty a h 0) (rq - (arenaAt a h).qty) hndrest ?_
      intro x hx
      have hxa := hrest x hx
      have hne : x ≠ h := fun he => hnotin (he ▸ hx)
      rw [arenaAt_setQty_ne a h 0 x hne, setQty_orders_length]
      exact hxa
    · -- partial fill of the head
      intro x hx
      dsimp only at hx ⊢
      rw [setQty_orders_length]
      rcases List.mem_cons.mp hx with rfl | hxr
      · refine ⟨hh.1, ?_, ?_⟩
        · rw [arenaAt_setQty_self a x _ hh.1]
          dsimp only
          omega
        · rw [arenaAt_setQty_self a x _ hh.1]
          exact hh.2.2
      · have hne : x ≠ h := fun he => hnotin (he ▸ hxr)
        rw [arenaAt_setQty_ne a h _ x hne]
        exact hrest x hxr

theorem pq_fills_fields (a : OrderArena) (q : List Nat) (rq id : Nat) (s : Side) (P : Nat)
    (hpc : ∀ h ∈ q, (arenaAt a h).price = P) :
    ∀ f ∈ (processQueue a q rq id s).fills,
      f.price = P ∧ f.order_1 = id ∧ f.taker_side = s := by
  induction q generalizing a rq with
  | nil => intro f hf; simp [processQueue] at hf
  | cons h rest ih =>
    have hhp := hpc h (List.mem_cons_self h rest)
    have hrest : ∀ x ∈ rest, (arenaAt a x).price = P :=
      fun x hx => hpc x (List.mem_cons_of_mem h hx)
    simp only [processQueue]
    split_ifs with h0 h1 h2
    · intro f hf; simp at hf
    · exact ih a rq hrest
    · intro f hf
      dsimp only at hf
      rcases List.mem_cons.mp hf with rfl | hfr
      · exact ⟨hhp, rfl, rfl⟩
      · refine ih (setQty a h 0) (rq - (arenaAt a h).qty) ?_ f hfr
        intro x hx
        rw [arenaAt_setQty_price]
        exact hrest x hx
    · intro f hf
      dsimp only at hf
      rcases List.mem_singleton.mp hf with rfl
      exact ⟨hhp, rfl, rfl⟩

theorem pq_fifo (a : OrderArena) (q : List Nat) (rq id : Nat) (s : Side)
    (hnd : q.Nodup) (hlive : ∀ h ∈ q, 0 < (arenaAt a h).qty) :
    (processQueue a q rq id s).fills.map FillMetadata.order_2 =
      (q.take (processQueue a q rq id s).fills.length).map (fun h => (arenaAt a h).id) := by
  induction q generalizing a rq with
  | nil => rfl
  | cons h rest ih =>
    have hh := hlive h (List.mem_cons_self h rest)
    have hrest : ∀ x ∈ rest, 0 < (arenaAt a x).qty :=
      fun x hx => hlive x (List.mem_cons_of_mem h hx)
    have hnotin : h ∉ rest := (List.nodup_cons.mp hnd).1
    have hndrest : rest.Nodup := (List.nodup_cons.mp hnd).2
    simp only [processQueue]
    split_ifs with h0 h1 h2
    · rfl
    · omega
    · dsimp only
      have hrest' : ∀ x ∈ rest, 0 < (arenaAt (setQty a h 0) x).qty := by
        intro x hx
        have hne : x ≠ h := fun he => hnotin (he ▸ hx)
        rw [arenaAt_setQty_ne a h 0 x hne]
        exact hrest x hx
      have hrec := ih (setQty a h 0) (rq - (arenaAt a h).qty) hndrest hrest'
      simp only [arenaAt_setQty_id] at hrec
      simp only [List.map_cons, List.length_cons, List.take_succ_cons, hrec]
    · simp

theorem pq_fills_nonempty (a : OrderArena) (q : List Nat) (rq id : Nat) (s : Side)
    (hrq : 0 < rq) (hex : ∃ h ∈ q, 0 < (arenaAt a h).qty) :
    (processQueue a q rq id s).fills ≠ [] := by
  induction q generalizing a rq with
  | nil => rcases hex with ⟨h, hh, _⟩; simp at hh
  | cons h rest ih =>
    simp only [processQueue]
    split_ifs with h0 h1 h2
    · omega
    · refine ih a rq hrq ?_
      rcases hex with ⟨x, hx, hxq⟩
      rcases List.mem_cons.mp hx with rfl | hxr
      · omega
      · exact ⟨x, hxr, hxq⟩
    · dsimp only
      exact List.cons_ne_nil _ _
    · dsimp only
      exact List.cons_ne_nil _ _

theorem pq_maker_exists (a : OrderArena) (q : List Nat) (rq id : Nat) (s : Side) :
    ∀ f ∈ (processQueue a q rq id s).fills,
      ∃ h ∈ q, (arenaAt a h).id = f.order_2 ∧ (arenaAt a h).price = f.price := by
  induction q generalizing a rq with
  | nil => intro f hf; simp [processQueue] at hf
  | cons h rest ih =>
    simp only [processQueue]
    split_ifs with h0 h1 h2
    · intro f hf; simp at hf
    · intro f hf
      rcases ih a rq f hf with ⟨x, hx, hxe⟩
      exact ⟨x, List.mem_cons_of_mem h hx, hxe⟩
    · intro f hf
      dsimp only at hf
      rcases List.mem_cons.mp hf with rfl | hfr
      · exact ⟨h, List.mem_cons_self h rest, rfl, rfl⟩
      · rcases ih (setQty a h 0) (rq - (arenaAt a h).qty) f hfr with ⟨x, hx, hxe⟩
        refine ⟨x, List.mem_cons_of_mem h hx, ?_, ?_⟩
        · rw [← arenaAt_setQty_id a h 0 x]; exact hxe.1
        · rw [← arenaAt_setQty_price a h 0 x]; exact hxe.2
    · intro f hf
      dsimp only at hf
      rcases List.mem_singleton.mp hf with rfl
      exact ⟨h, List.mem_cons_self h rest, rfl, rfl⟩

/-! ## Lemmas about `matchLoop` -/

theorem handlesOf_nil : handlesOf [] = [] := rfl

theorem handlesOf_cons (p : Nat) (q : List Nat) (rest : SideMap) :
    handlesOf ((p, q) :: rest) = q ++ handlesOf rest := by
  simp [handlesOf]

/-- The relation between the levels of a side before and after a matching walk:
keys are unchanged and each queue is replaced by one of its suffixes. -/
def LevelsRel (L L' : SideMap) : Prop :=
  List.Forall₂ (fun x y => x.1 = y.1 ∧ y.2 <:+ x.2) L L'

theorem LevelsRel.keys_eq {L L' : SideMap} (h : LevelsRel L L') :
    L.map Prod.fst = L'.map Prod.fst := by
  induction h with
  | nil => rfl
  | cons hxy _ ih => simp [hxy.1, ih]

theorem LevelsRel.refl (L : SideMap) : LevelsRel L L := by
  rw [LevelsRel, List.forall₂_same]
  exact fun x _ => ⟨rfl, List.suffix_refl _⟩

theorem ml_levels (bef : Nat → Nat → Bool) (a : OrderArena) (L : SideMap)
    (rq id : Nat) (lp : Option Nat) (s : Side) (fl : Bool) (tr : Option Nat) :
    LevelsRel L (matchLoop bef a L rq id lp s fl tr).levels := by
  induction L generalizing a rq fl tr with
  | nil => exact List.Forall₂.nil
  | cons e rest ih =>
    obtain ⟨p, q⟩ := e
    simp only [matchLoop]
    by_cases h0 : q.isEmpty = true
    · rw [if_pos h0]
      exact List.Forall₂.cons ⟨rfl, List.suffix_refl _⟩ (ih a rq fl tr)
    · rw [if_neg h0]
      by_cases h1 : stopHere bef lp p = true
      · rw [if_pos h1]
        exact LevelsRel.refl _
      · rw [if_neg h1]
        by_cases h2 : rq = 0
        · rw [if_pos h2]
          exact LevelsRel.refl _
        · rw [if_neg h2]
          exact List.Forall₂.cons ⟨rfl, pq_suffix a q rq id s⟩ (ih _ _ _ _)

theorem ml_keys (bef : Nat → Nat → Bool) (a : OrderArena) (L : SideMap)
    (rq id : Nat) (lp : Option Nat) (s : Side) (fl : Bool) (tr : Option Nat) :
    (matchLoop bef a L rq id lp s fl tr).levels.map Prod.fst = L.map Prod.fst :=
  (ml_levels bef a L rq id lp s fl tr).keys_eq.symm

theorem ml_arena_free (bef : Nat → Nat → Bool) (a : OrderArena) (L : SideMap)
    (rq id : Nat) (lp : Option Nat) (s : Side) (fl : Bool) (tr : Option Nat) :
    (matchLoop bef a L rq id lp s fl tr).arena.free = a.free := by
  induction L generalizing a rq fl tr with
  | nil => rfl
  | cons e rest ih =>
    obtain ⟨p, q⟩ := e
    simp only [matchLoop]
    by_cases h0 : q.isEmpty = true
    · rw [if_pos h0]; exact ih a rq fl tr
    · rw [if_neg h0]
      by_cases h1 : stopHere bef lp p = true
      · rw [if_pos h1]
      · rw [if_neg h1]
        by_cases h2 : rq = 0
        · rw [if_pos h2]
        · rw [if_neg h2]
          dsimp only
          rw [ih _ _ _ _, pq_arena_free]

theorem ml_arena_map (bef : Nat → Nat → Bool) (a : OrderArena) (L : SideMap)
    (rq id : Nat) (lp : Option Nat) (s : Side) (fl : Bool) (tr : Option Nat) :
    (matchLoop bef a L rq id lp s fl tr).arena.order_map = a.order_map := by
  induction L generalizing a rq fl tr with
  | nil => rfl
  | cons e rest ih =>
    obtain ⟨p, q⟩ := e
    simp only [matchLoop]
    by_cases h0 : q.isEmpty = true
    · rw [if_pos h0]; exact ih a rq fl tr
    · rw [if_neg h0]
      by_cases h1 : stopHere bef lp p = true
      · rw [if_pos h1]
      · rw [if_neg h1]
        by_cases h2 : rq = 0
        · rw [if_pos h2]
        · rw [if_neg h2]
          dsimp only
          rw [ih _ _ _ _, pq_arena_map]

theorem ml_arena_length (bef : Nat → Nat → Bool) (a : OrderArena) (L : SideMap)
    (rq id : Nat) (lp : Option Nat) (s : Side) (fl : Bool) (tr : Option Nat) :
    (matchLoop bef a L rq id lp s fl tr).arena.orders.length = a.orders.length := by
  induction L generalizing a rq fl tr with
  | nil => rfl
  | cons e rest ih =>
    obtain ⟨p, q⟩ := e
    simp only [matchLoop]
    by_cases h0 : q.isEmpty = true
    · rw [if_pos h0]; exact ih a rq fl tr
    · rw [if_neg h0]
      by_cases h1 : stopHere bef lp p = true
      · rw [if_pos h1]
      · rw [if_neg h1]
        by_cases h2 : rq = 0
        · rw [if_pos h2]
        · rw [if_neg h2]
          dsimp only
          rw [ih _ _ _ _, pq_arena_length]

theorem ml_arena_id (bef : Nat → Nat → Bool) (a : OrderArena) (L : SideMap)
    (rq id : Nat) (lp : Option Nat) (s : Side) (fl : Bool) (tr : Option Nat) (h' : Nat) :
    (arenaAt (matchLoop bef a L rq id lp s fl tr).arena h').id = (arenaAt a h').id := by
  induction L generalizing a rq fl tr with
  | nil => rfl
  | cons e rest ih =>
    obtain ⟨p, q⟩ := e
    simp only [matchLoop]
    by_cases h0 : q.isEmpty = true
    · rw [if_pos h0]; exact ih a rq fl tr
    · rw [if_neg h0]
      by_cases h1 : stopHere bef lp p = true
      · rw [if_pos h1]
      · rw [if_neg h1]
        by_cases h2 : rq = 0
        · rw [if_pos h2]
        · rw [if_neg h2]
          dsimp only
          rw [ih _ _ _ _, pq_arena_id]

theorem ml_arena_price (bef : Nat → Nat → Bool) (a : OrderArena) (L : SideMap)
    (rq id : Nat) (lp : Option Nat) (s : Side) (fl : Bool) (tr : Option Nat) (h' : Nat) :
    (arenaAt (matchLoop bef a L rq id lp s fl tr).arena h').price = (arenaAt a h').price := by
  induction L generalizing a rq fl tr with
  | nil => rfl
  | cons e rest ih =>
    obtain ⟨p, q⟩ := e
    simp only [matchLoop]
    by_cases h0 : q.isEmpty = true
    · rw [if_pos h0]; exact ih a rq fl tr
    · rw [if_neg h0]
      by_cases h1 : stopHere bef lp p = true
      · rw [if_pos h1]
      · rw [if_neg h1]
        by_cases h2 : rq = 0
        · rw [if_pos h2]
        · rw [if_neg h2]
          dsimp only
          rw [ih _ _ _ _, pq_arena_price]

theorem ml_untouched (bef : Nat → Nat → Bool) (a : OrderArena) (L : SideMap)
    (rq id : Nat) (lp : Option Nat) (s : Side) (fl : Bool) (tr : Option Nat) (h' : Nat)
    (hni : h' ∉ handlesOf L) :
    arenaAt (matchLoop bef a L rq id lp s fl tr).arena h' = arenaAt a h' := by
  induction L generalizing a rq fl tr with
  | nil => rfl
  | cons e rest ih =>
    obtain ⟨p, q⟩ := e
    rw [handlesOf_cons] at hni
    have hq : h' ∉ q := fun hx => hni (List.mem_append_left _ hx)
    have hr : h' ∉ handlesOf rest := fun hx => hni (List.mem_append_right _ hx)
    simp only [matchLoop]
    by_cases h0 : q.isEmpty = true
    · rw [if_pos h0]; exact ih a rq fl tr hr
    · rw [if_neg h0]
      by_cases h1 : stopHere bef lp p = true
      · rw [if_pos h1]
      · rw [if_neg h1]
        by_cases h2 : rq = 0
        · rw [if_pos h2]
        · rw [if_neg h2]
          dsimp only
          rw [ih _ _ _ _ hr, pq_untouched a q rq id s h' hq]

theorem ml_remaining_le (bef : Nat → Nat → Bool) (a : OrderArena) (L : SideMap)
    (rq id : Nat) (lp : Option Nat) (s : Side) (fl : Bool) (tr : Option Nat) :
    (matchLoop bef a L rq id lp s fl tr).remaining ≤ rq := by
  induction L generalizing a rq fl tr with
  | nil => exact Nat.le_refl rq
  | cons e rest ih =>
    obtain ⟨p, q⟩ := e
    simp only [matchLoop]
    by_cases h0 : q.isEmpty = true
    · rw [if_pos h0]; exact ih a rq fl tr
    · rw [if_neg h0]
      by_cases h1 : stopHere bef lp p = true
      · rw [if_pos h1]
      · rw [if_neg h1]
        by_cases h2 : rq = 0
        · rw [if_pos h2]
        · rw [if_neg h2]
          dsimp only
          exact Nat.le_trans (ih _ _ _ _) (Nat.sub_le _ _)

theorem ml_fills_sum (bef : Nat → Nat → Bool) (a : OrderArena) (L : SideMap)
    (rq id : Nat) (lp : Option Nat) (s : Side) (fl : Bool) (tr : Option Nat) :
    fillsQty (matchLoop bef a L rq id lp s fl tr).fills =
      rq - (matchLoop bef a L rq id lp s fl tr).remaining := by
  induction L generalizing a rq fl tr with
  | nil => simp [matchLoop, fillsQty]
  | cons e rest ih =>
    obtain ⟨p, q⟩ := e
    simp only [matchLoop]
    by_cases h0 : q.isEmpty = true
    · rw [if_pos h0]; exact ih a rq fl tr
    · rw [if_neg h0]
      by_cases h1 : stopHere bef lp p = true
      · rw [if_pos h1]; simp [fillsQty]
      · rw [if_neg h1]
        by_cases h2 : rq = 0
        · rw [if_pos h2]; simp [fillsQty]
        · rw [if_neg h2]
          dsimp only
          rw [fillsQty_append, pq_fills_sum, ih _ _ _ _]
          have h3 := pq_filled_le a q rq id s
          have h4 := ml_remaining_le bef (processQueue a q rq id s).arena rest
            (rq - (processQueue a q rq id s).filled) id lp s
            (if (processQueue a q rq id s).queue.isEmpty = true then true
             else if fl || tr.isNone then false else fl)
            (if fl || tr.isNone then some p else tr)
          omega

/-- Every handle resting in a side is in bounds, live (positive residue), and
rests at the level keyed by its own recorded price. -/
def liveAt (a : OrderArena) (L : SideMap) : Prop :=
  ∀ p q h, (p, q) ∈ L → h ∈ q →
    h < a.orders.length ∧ 0 < (arenaAt a h).qty ∧ (arenaAt a h).price = p

theorem liveAt_cons (a : OrderArena) (p : Nat) (q : List Nat) (rest : SideMap) :
    liveAt a ((p, q) :: rest) ↔
      (∀ h ∈ q, h < a.orders.length ∧ 0 < (arenaAt a h).qty ∧ (arenaAt a h).price = p) ∧
      liveAt a rest := by
  constructor
  · intro hl
    exact ⟨fun h hh => hl p q h (List.mem_cons_self _ _) hh,
           fun p' q' h hm hh => hl p' q' h (List.mem_cons_of_mem _ hm) hh⟩
  · rintro ⟨hq, hrest⟩ p' q' h hm hh
    rcases List.mem_cons.mp hm with he | hm'
    · cases he
      exact hq h hh
    · exact hrest p' q' h hm' hh

theorem mem_handlesOf {x : Nat} {L : SideMap} :
    x ∈ handlesOf L ↔ ∃ e ∈ L, x ∈ e.2 := by
  simp only [handlesOf, List.mem_flatten, List.mem_map]
  constructor
  · rintro ⟨l, ⟨e, he, rfl⟩, hx⟩
    exact ⟨e, he, hx⟩
  · rintro ⟨e, he, hx⟩
    exact ⟨e.2, ⟨e, he, rfl⟩, hx⟩

theorem ml_live (bef : Nat → Nat → Bool) (a : OrderArena) (L : SideMap)
    (rq id : Nat) (lp : Option Nat) (s : Side) (fl : Bool) (tr : Option Nat)
    (hnd : (handlesOf L).Nodup) (hl : liveAt a L) :
    liveAt (matchLoop bef a L rq id lp s fl tr).arena
      (matchLoop bef a L rq id lp s fl tr).levels := by
  induction L generalizing a rq fl tr with
  | nil =>
    intro p q h hm
    simp [matchLoop] at hm
  | cons e rest ih =>
    obtain ⟨p, q⟩ := e
    rw [handlesOf_cons, List.nodup_append] at hnd
    obtain ⟨hndq, hndr, hdisj⟩ := hnd
    rw [liveAt_cons] at hl
    obtain ⟨hlq, hlr⟩ := hl
    simp only [matchLoop]
    by_cases h0 : q.isEmpty = true
    · rw [if_pos h0]
      have hq0 : q = [] := List.isEmpty_iff.mp h0
      subst hq0
      intro p' q' h hm hh
      dsimp only at hm
      rcases List.mem_cons.mp hm with he | hm'
      · cases he
        simp at hh
      · exact ih a rq fl tr hndr hlr p' q' h hm' hh
    · rw [if_neg h0]
      by_cases h1 : stopHere bef lp p = true
      · rw [if_pos h1]
        exact (liveAt_cons a p q rest).mpr ⟨hlq, hlr⟩
      · rw [if_neg h1]
        by_cases h2 : rq = 0
        · rw [if_pos h2]
          exact (liveAt_cons a p q rest).mpr ⟨hlq, hlr⟩
        · rw [if_neg h2]
          dsimp only
          have hsuffix := pq_suffix a q rq id s
          -- the rest of the side is untouched by processing this queue
          have hrest_live : liveAt (processQueue a q rq id s).arena rest := by
            intro p' q' x hm hx
            have hxq : x ∉ q := fun hq =>
              hdisj hq (mem_handlesOf.mpr ⟨(p', q'), hm, hx⟩)
            rw [pq_untouched a q rq id s x hxq, pq_arena_length]
            exact hlr p' q' x hm hx
          intro p' q' x hm hx
          rcases List.mem_cons.mp hm with he | hm'
          · cases he
            -- a handle surviving in the processed queue: live after processing,
            -- untouched by the walk over the remaining levels
            have hx' := pq_live a q rq id s p hndq hlq x hx
            have hxq : x ∈ q := hsuffix.subset hx
            have hxr : x ∉ handlesOf rest := fun hr => hdisj hxq hr
            rw [ml_untouched bef _ rest _ id lp s _ _ x hxr, ml_arena_length]
            exact hx'
          · exact ih _ _ _ _ hndr hrest_live p' q' x hm' hx

theorem LevelsRel.handles_sublist {L L' : SideMap} (h : LevelsRel L L') :
    List.Sublist (handlesOf L') (handlesOf L) := by
  induction h with
  | nil => exact List.Sublist.refl _
  | cons hxy hrest ih =>
    rename_i x y l₁ l₂
    rw [show x = (x.1, x.2) from rfl, show y = (y.1, y.2) from rfl,
        handlesOf_cons, handlesOf_cons]
    exact List.Sublist.append hxy.2.sublist ih

theorem ml_handles_sublist (bef : Nat → Nat → Bool) (a : OrderArena) (L : SideMap)
    (rq id : Nat) (lp : Option Nat) (s : Side) (fl : Bool) (tr : Option Nat) :
    List.Sublist (handlesOf (matchLoop bef a L rq id lp s fl tr).levels) (handlesOf L) :=
  (ml_levels bef a L rq id lp s fl tr).handles_sublist

/-- Queue handles rest at the level keyed by their own recorded price. -/
def priceCoh (a : OrderArena) (L : SideMap) : Prop :=
  ∀ p q h, (p, q) ∈ L → h ∈ q → (arenaAt a h).price = p

theorem liveAt.priceCoh {a : OrderArena} {L : SideMap} (hl : liveAt a L) :
    priceCoh a L := fun p q h hm hh => (hl p q h hm hh).2.2

theorem ml_maker (bef : Nat → Nat → Bool) (a : OrderArena) (L : SideMap)
    (rq id : Nat) (lp : Option Nat) (s : Side) (fl : Bool) (tr : Option Nat)
    (hpc : priceCoh a L) :
    ∀ f ∈ (matchLoop bef a L rq id lp s fl tr).fills,
      ∃ p q, (p, q) ∈ L ∧ stopHere bef lp p = false ∧ f.price = p ∧
        f.order_1 = id ∧ f.taker_side = s ∧
        ∃ h ∈ q, (arenaAt a h).id = f.order_2 ∧ (arenaAt a h).price = f.price := by
  induction L generalizing a rq fl tr with
  | nil =>
    intro f hf
    simp [matchLoop] at hf
  | cons e rest ih =>
    obtain ⟨p, q⟩ := e
    have hpcq : ∀ h ∈ q, (arenaAt a h).price = p :=
      fun h hh => hpc p q h (List.mem_cons_self _ _) hh
    have hpcr : priceCoh a rest :=
      fun p' q' h hm hh => hpc p' q' h (List.mem_cons_of_mem _ hm) hh
    simp only [matchLoop]
    by_cases h0 : q.isEmpty = true
    · rw [if_pos h0]
      intro f hf
      dsimp only at hf
      rcases ih a rq fl tr hpcr f hf with ⟨p', q', hm, hs, hfp, ho1, hts, hmk⟩
      exact ⟨p', q', List.mem_cons_of_mem _ hm, hs, hfp, ho1, hts, hmk⟩
    · rw [if_neg h0]
      by_cases h1 : stopHere bef lp p = true
      · rw [if_pos h1]
        intro f hf
        simp at hf
      · rw [if_neg h1]
        by_cases h2 : rq = 0
        · rw [if_pos h2]
          intro f hf
          simp at hf
        · rw [if_neg h2]
          dsimp only
          intro f hf
          rcases List.mem_append.mp hf with hfp | hfr
          · -- fill produced at this level
            obtain ⟨hfprice, hfo1, hfts⟩ := pq_fills_fields a q rq id s p hpcq f hfp
            obtain ⟨h, hh, hid, hpr⟩ := pq_maker_exists a q rq id s f hfp
            exact ⟨p, q, List.mem_cons_self _ _, Bool.eq_false_iff.mpr h1, hfprice,
              hfo1, hfts, h, hh, hid, hpr⟩
          · -- fill produced further down
            have hpcr' : priceCoh (processQueue a q rq id s).arena rest := by
              intro p' q' h hm hh
              rw [pq_arena_price]
              exact hpcr p' q' h hm hh
            rcases ih _ _ _ _ hpcr' f hfr with ⟨p', q', hm, hs, hfp', ho1, hts, h, hh, hid, hpr⟩
            refine ⟨p', q', List.mem_cons_of_mem _ hm, hs, hfp', ho1, hts, h, hh, ?_, ?_⟩
            · rw [← pq_arena_id a q rq id s h]
              exact hid
            · rw [← pq_arena_price a q rq id s h]
              exact hpr

theorem ml_fills_price_mem (bef : Nat → Nat → Bool) (a : OrderArena) (L : SideMap)
    (rq id : Nat) (lp : Option Nat) (s : Side) (fl : Bool) (tr : Option Nat)
    (hpc : priceCoh a L) :
    ∀ f ∈ (matchLoop bef a L rq id lp s fl tr).fills,
      f.price ∈ L.map Prod.fst ∧ stopHere bef lp f.price = false := by
  intro f hf
  rcases ml_maker bef a L rq id lp s fl tr hpc f hf with ⟨p, q, hm, hs, hfp, -⟩
  subst hfp
  exact ⟨List.mem_map.mpr ⟨(f.price, q), hm, rfl⟩, hs⟩

theorem queueAt_cons_self (p : Nat) (q : List Nat) (rest : SideMap) :
    queueAt ((p, q) :: rest) p = q := by
  simp [queueAt, List.find?_cons_of_pos]

theorem queueAt_cons_ne (p : Nat) (q : List Nat) (rest : SideMap) (P : Nat) (h : P ≠ p) :
    queueAt ((p, q) :: rest) P = queueAt rest P := by
  have : ((p, q).1 == P) = false := by simpa using (Ne.symm h)
  simp [queueAt, List.find?_cons_of_neg, this]

theorem ml_fifo (bef : Nat → Nat → Bool) (a : OrderArena) (L : SideMap)
    (rq id : Nat) (lp : Option Nat) (s : Side) (fl : Bool) (tr : Option Nat)
    (hknd : (L.map Prod.fst).Nodup) (hhnd : (handlesOf L).Nodup) (hl : liveAt a L)
    (P : Nat) :
    ((matchLoop bef a L rq id lp s fl tr).fills.filter
        (fun f => f.price == P)).map FillMetadata.order_2 =
      ((queueAt L P).take (((matchLoop bef a L rq id lp s fl tr).fills.filter
        (fun f => f.price == P)).length)).map (fun h => (arenaAt a h).id) := by
  induction L generalizing a rq fl tr with
  | nil => simp [matchLoop, queueAt]
  | cons e rest ih =>
    obtain ⟨p, q⟩ := e
    have hkndr : (rest.map Prod.fst).Nodup := (List.nodup_cons.mp hknd).2
    have hpnr : p ∉ rest.map Prod.fst := (List.nodup_cons.mp hknd).1
    rw [handlesOf_cons, List.nodup_append] at hhnd
    obtain ⟨hndq, hndr, hdisj⟩ := hhnd
    rw [liveAt_cons] at hl
    obtain ⟨hlq, hlr⟩ := hl
    have hpcr : priceCoh a rest := fun p' q' h hm hh => (hlr p' q' h hm hh).2.2
    simp only [matchLoop]
    by_cases h0 : q.isEmpty = true
    · rw [if_pos h0]
      have hq0 : q = [] := List.isEmpty_iff.mp h0
      subst hq0
      dsimp only
      by_cases hP : P = p
      · subst hP
        have hnone : (matchLoop bef a rest rq id lp s fl tr).fills.filter
            (fun f => f.price == P) = [] := by
          rw [List.filter_eq_nil_iff]
          intro f hf
          have := (ml_fills_price_mem bef a rest rq id lp s fl tr hpcr f hf).1
          simp only [beq_iff_eq]
          intro he
          exact hpnr (he ▸ this)
        rw [hnone]
        simp [queueAt_cons_self]
      · rw [queueAt_cons_ne p [] rest P hP]
        exact ih a rq fl tr hkndr hndr hlr
    · rw [if_neg h0]
      by_cases h1 : stopHere bef lp p = true
      · rw [if_pos h1]
        simp
      · rw [if_neg h1]
        by_cases h2 : rq = 0
        · rw [if_pos h2]
          simp
        · rw [if_neg h2]
          dsimp only
          have hpcq : ∀ h ∈ q, (arenaAt a h).price = p := fun h hh => (hlq h hh).2.2
          have hprall : ∀ f ∈ (processQueue a q rq id s).fills, f.price = p :=
            fun f hf => (pq_fills_fields a q rq id s p hpcq f hf).1
          have hlr' : liveAt (processQueue a q rq id s).arena rest := by
            intro p' q' x hm hx
            have hxq : x ∉ q := fun hq =>
              hdisj hq (mem_handlesOf.mpr ⟨(p', q'), hm, hx⟩)
            rw [pq_untouched a q rq id s x hxq, pq_arena_length]
            exact hlr p' q' x hm hx
          have hpcr' : priceCoh (processQueue a q rq id s).arena rest := by
            intro p' q' h hm hh
            rw [pq_arena_price]
            exact hpcr p' q' h hm hh
          rw [List.filter_append]
          by_cases hP : P = p
          · subst hP
            have hkeep : (processQueue a q rq id s).fills.filter
                (fun f => f.price == P) = (processQueue a q rq id s).fills := by
              rw [List.filter_eq_self]
              intro f hf
              simp [hprall f hf]
            have hnone : (matchLoop bef (processQueue a q rq id s).arena rest
                (rq - (processQueue a q rq id s).filled) id lp s
                (if (processQueue a q rq id s).queue.isEmpty = true then true
                 else if fl || tr.isNone then false else fl)
                (if fl || tr.isNone then some P else tr)).fills.filter
                (fun f => f.price == P) = [] := by
              rw [List.filter_eq_nil_iff]
              intro f hf
              have := (ml_fills_price_mem bef _ rest _ id lp s _ _ hpcr' f hf).1
              simp only [beq_iff_eq]
              intro he
              exact hpnr (he ▸ this)
            rw [hkeep, hnone, List.append_nil, queueAt_cons_self]
            exact pq_fifo a q rq id s hndq (fun h hh => (hlq h hh).2.1)
          · have hnone : (processQueue a q rq id s).fills.filter
                (fun f => f.price == P) = [] := by
              rw [List.filter_eq_nil_iff]
              intro f hf
              simp only [beq_iff_eq]
              intro he
              exact hP (he.symm.trans (hprall f hf))
            rw [hnone, List.nil_append, queueAt_cons_ne p q rest P hP]
            have := ih (processQueue a q rq id s).arena
              (rq - (processQueue a q rq id s).filled)
              (if (processQueue a q rq id s).queue.isEmpty = true then true
               else if fl || tr.isNone then false else fl)
              (if fl || tr.isNone then some p else tr) hkndr hndr hlr'
            simp only [pq_arena_id] at this
            exact this

theorem chain'_of_all_eq {le : Nat → Nat → Prop} {l : List Nat} {c : Nat}
    (hc : ∀ x ∈ l, x = c) (hr : le c c) : l.Chain' le := by
  induction l with
  | nil => exact List.chain'_nil
  | cons a l ih =>
    rw [List.chain'_cons']
    refine ⟨?_, ih (fun x hx => hc x (List.mem_cons_of_mem a hx))⟩
    intro y hy
    have hal : a = c := hc a (List.mem_cons_self _ _)
    have hyl : y = c := hc y (List.mem_cons_of_mem a (List.mem_of_mem_head? hy))
    rw [hal, hyl]
    exact hr

theorem ml_price_chain (bef : Nat → Nat → Bool) (a : OrderArena) (L : SideMap)
    (rq id : Nat) (lp : Option Nat) (s : Side) (fl : Bool) (tr : Option Nat)
    (le : Nat → Nat → Prop) (hrefl : ∀ x, le x x)
    (hkeys : L.Pairwise (fun x y => le x.1 y.1)) (hpc : priceCoh a L) :
    ((matchLoop bef a L rq id lp s fl tr).fills.map FillMetadata.price).Chain' le := by
  induction L generalizing a rq fl tr with
  | nil => simp [matchLoop]
  | cons e rest ih =>
    obtain ⟨p, q⟩ := e
    rw [List.pairwise_cons] at hkeys
    obtain ⟨hhead, htail⟩ := hkeys
    have hpcq : ∀ h ∈ q, (arenaAt a h).price = p :=
      fun h hh => hpc p q h (List.mem_cons_self _ _) hh
    have hpcr : priceCoh a rest :=
      fun p' q' h hm hh => hpc p' q' h (List.mem_cons_of_mem _ hm) hh
    simp only [matchLoop]
    by_cases h0 : q.isEmpty = true
    · rw [if_pos h0]
      exact ih a rq fl tr htail hpcr
    · rw [if_neg h0]
      by_cases h1 : stopHere bef lp p = true
      · rw [if_pos h1]; simp
      · rw [if_neg h1]
        by_cases h2 : rq = 0
        · rw [if_pos h2]; simp
        · rw [if_neg h2]
          dsimp only
          rw [List.map_append]
          have hpcr' : priceCoh (processQueue a q rq id s).arena rest := by
            intro p' q' h hm hh
            rw [pq_arena_price]
            exact hpcr p' q' h hm hh
          refine List.Chain'.append ?_ (ih _ _ _ _ htail hpcr') ?_
          · refine chain'_of_all_eq ?_ (hrefl p)
            intro x hx
            rcases List.mem_map.mp hx with ⟨f, hf, rfl⟩
            exact (pq_fills_fields a q rq id s p hpcq f hf).1
          · intro x hx y hy
            have hxp : x = p := by
              have hxm := List.mem_of_mem_getLast? hx
              rcases List.mem_map.mp hxm with ⟨f, hf, rfl⟩
              exact (pq_fills_fields a q rq id s p hpcq f hf).1
            have hym := List.mem_of_mem_head? hy
            rcases List.mem_map.mp hym with ⟨f, hf, rfl⟩
            rcases ml_maker bef _ rest _ id lp s _ _ hpcr' f hf with
              ⟨p', q', hm, _, hfp, -⟩
            rw [hxp, hfp]
            exact hhead (p', q') hm

theorem ml_stop_untouched (bef : Nat → Nat → Bool) (a : OrderArena) (L : SideMap)
    (rq id : Nat) (lp : Option Nat) (s : Side) (fl : Bool) (tr : Option Nat)
    (hmono : L.Pairwise
      (fun x y => stopHere bef lp x.1 = true → stopHere bef lp y.1 = true)) :
    ∀ e ∈ L, stopHere bef lp e.1 = true →
      e ∈ (matchLoop bef a L rq id lp s fl tr).levels := by
  induction L generalizing a rq fl tr with
  | nil => intro e he; simp at he
  | cons x rest ih =>
    obtain ⟨p, q⟩ := x
    rw [List.pairwise_cons] at hmono
    obtain ⟨hhead, htail⟩ := hmono
    intro e he hse
    simp only [matchLoop]
    by_cases h0 : q.isEmpty = true
    · rw [if_pos h0]
      rcases List.mem_cons.mp he with rfl | he'
      · exact List.mem_cons_self _ _
      · exact List.mem_cons_of_mem _ (ih a rq fl tr htail e he' hse)
    · rw [if_neg h0]
      by_cases h1 : stopHere bef lp p = true
      · rw [if_pos h1]
        exact he
      · rw [if_neg h1]
        by_cases h2 : rq = 0
        · rw [if_pos h2]
          exact he
        · rw [if_neg h2]
          dsimp only
          rcases List.mem_cons.mp he with rfl | he'
          · exact absurd hse h1
          · exact List.mem_cons_of_mem _ (ih _ _ _ _ htail e he' hse)

theorem ml_exhaust (bef : Nat → Nat → Bool) (a : OrderArena) (L : SideMap)
    (rq id : Nat) (lp : Option Nat) (s : Side) (fl : Bool) (tr : Option Nat)
    (hmono : L.Pairwise
      (fun x y => stopHere bef lp x.1 = true → stopHere bef lp y.1 = true))
    (hr : 0 < (matchLoop bef a L rq id lp s fl tr).remaining) :
    ∀ e ∈ (matchLoop bef a L rq id lp s fl tr).levels,
      stopHere bef lp e.1 = false → e.2 = [] := by
  induction L generalizing a rq fl tr with
  | nil => intro e he; simp [matchLoop] at he
  | cons x rest ih =>
    obtain ⟨p, q⟩ := x
    rw [List.pairwise_cons] at hmono
    obtain ⟨hhead, htail⟩ := hmono
    simp only [matchLoop] at hr ⊢
    by_cases h0 : q.isEmpty = true
    · rw [if_pos h0] at hr ⊢
      intro e he hse
      rcases List.mem_cons.mp he with rfl | he'
      · exact List.isEmpty_iff.mp h0
      · exact ih a rq fl tr htail hr e he' hse
    · rw [if_neg h0] at hr ⊢
      by_cases h1 : stopHere bef lp p = true
      · rw [if_pos h1] at hr ⊢
        intro e he hse
        rcases List.mem_cons.mp he with rfl | he'
        · rw [h1] at hse; cases hse
        · have := hhead e he' h1
          rw [this] at hse; cases hse
      · rw [if_neg h1] at hr ⊢
        by_cases h2 : rq = 0
        · rw [if_pos h2] at hr
          dsimp only at hr
          omega
        · rw [if_neg h2] at hr ⊢
          dsimp only at hr ⊢
          intro e he hse
          rcases List.mem_cons.mp he with rfl | he'
          · -- the processed head queue must be exhausted
            have hle := ml_remaining_le bef (processQueue a q rq id s).arena rest
              (rq - (processQueue a q rq id s).filled) id lp s
              (if (processQueue a q rq id s).queue.isEmpty = true then true
               else if fl || tr.isNone then false else fl)
              (if fl || tr.isNone then some p else tr)
            have hflt : (processQueue a q rq id s).filled < rq := by omega
            exact pq_empty_of_lt a q rq id s hflt
          · exact ih _ _ _ _ htail hr e he' hse

theorem ml_first_fill (bef : Nat → Nat → Bool) (a : OrderArena) (L : SideMap)
    (rq id : Nat) (lp : Option Nat) (s : Side) (fl : Bool) (tr : Option Nat)
    (hmono : L.Pairwise
      (fun x y => stopHere bef lp x.1 = true → stopHere bef lp y.1 = true))
    (hl : liveAt a L) (hrq : 0 < rq)
    (hex : ∃ e ∈ L, e.2 ≠ [] ∧ stopHere bef lp e.1 = false) :
    (matchLoop bef a L rq id lp s fl tr).fills ≠ [] := by
  induction L generalizing a rq fl tr with
  | nil => rcases hex with ⟨e, he, -⟩; simp at he
  | cons x rest ih =>
    obtain ⟨p, q⟩ := x
    rw [List.pairwise_cons] at hmono
    obtain ⟨hhead, htail⟩ := hmono
    rw [liveAt_cons] at hl
    obtain ⟨hlq, hlr⟩ := hl
    simp only [matchLoop]
    by_cases h0 : q.isEmpty = true
    · rw [if_pos h0]
      have hq0 : q = [] := List.isEmpty_iff.mp h0
      dsimp only
      refine ih a rq fl tr htail hlr hrq ?_
      rcases hex with ⟨e, he, hne, hse⟩
      rcases List.mem_cons.mp he with rfl | he'
      · exact absurd hq0 hne
      · exact ⟨e, he', hne, hse⟩
    · rw [if_neg h0]
      by_cases h1 : stopHere bef lp p = true
      · rw [if_pos h1]
        exfalso
        rcases hex with ⟨e, he, hne, hse⟩
        rcases List.mem_cons.mp he with rfl | he'
        · rw [h1] at hse; cases hse
        · rw [hhead e he' h1] at hse; cases hse
      · rw [if_neg h1]
        by_cases h2 : rq = 0
        · omega
        · rw [if_neg h2]
          dsimp only
          have hq : q ≠ [] := fun he => h0 (by simp [he])
          have hfne : (processQueue a q rq id s).fills ≠ [] := by
            refine pq_fills_nonempty a q rq id s hrq ?_
            rcases List.exists_mem_of_ne_nil q hq with ⟨h, hh⟩
            exact ⟨h, hh, (hlq h hh).2.1⟩
          intro hcon
          exact hfne (List.append_eq_nil.mp hcon).1

theorem ml_zero (bef : Nat → Nat → Bool) (a : OrderArena) (L : SideMap)
    (id : Nat) (lp : Option Nat) (s : Side) (fl : Bool) (tr : Option Nat) :
    (matchLoop bef a L 0 id lp s fl tr).levels = L ∧
    (matchLoop bef a L 0 id lp s fl tr).arena = a ∧
    (matchLoop bef a L 0 id lp s fl tr).fills = [] ∧
    (matchLoop bef a L 0 id lp s fl tr).remaining = 0 := by
  induction L generalizing fl tr with
  | nil => exact ⟨rfl, rfl, rfl, rfl⟩
  | cons x rest ih =>
    obtain ⟨p, q⟩ := x
    simp only [matchLoop]
    by_cases h0 : q.isEmpty = true
    · rw [if_pos h0]
      obtain ⟨hL, ha, hf, hr⟩ := ih fl tr
      exact ⟨by rw [hL], ha, hf, hr⟩
    · rw [if_neg h0]
      by_cases h1 : stopHere bef lp p = true
      · rw [if_pos h1]
        exact ⟨rfl, rfl, rfl, rfl⟩
      · rw [if_neg h1]
        rw [if_pos trivial]
        exact ⟨rfl, rfl, rfl, rfl⟩

/-! ## Lemmas about the side-map primitives -/

theorem computeBest_nil : computeBest [] = none := rfl

theorem computeBest_cons (k : Nat) (l : List Nat) (rest : SideMap) :
    computeBest ((k, l) :: rest) =
      if l.isEmpty then computeBest rest else some k := by
  by_cases hl : l.isEmpty
  · simp [computeBest, List.find?_cons_of_neg, hl]
  · have : (!(k, l).2.isEmpty) = true := by simpa using hl
    simp [computeBest, List.find?_cons_of_pos, this, hl]

theorem computeBest_mem {m : SideMap} {v : Nat} (h : computeBest m = some v) :
    ∃ l, (v, l) ∈ m ∧ l ≠ [] := by
  rcases Option.map_eq_some'.mp h with ⟨e, he, rfl⟩
  refine ⟨e.2, ?_, ?_⟩
  · exact (List.mem_of_find?_eq_some he : e ∈ m)
  · have := List.find?_some he
    simpa [List.isEmpty_iff] using this

theorem computeBest_eq_none {m : SideMap} :
    computeBest m = none ↔ ∀ e ∈ m, e.2 = [] := by
  constructor
  · intro h e he
    rcases Option.map_eq_none'.mp h with hf
    have := List.find?_eq_none.mp hf e he
    simpa [List.isEmpty_iff] using this
  · intro h
    rw [computeBest, Option.map_eq_none']
    rw [List.find?_eq_none]
    intro e he
    simp [List.isEmpty_iff, h e he]

theorem mem_insertHandle (bef : Nat → Nat → Bool) (m : SideMap) (p h : Nat) :
    ∀ e ∈ insertHandle bef m p h,
      (e.1 = p ∧ (e.2 = [h] ∨ ∃ l, (p, l) ∈ m ∧ e.2 = l ++ [h])) ∨ e ∈ m := by
  induction m with
  | nil =>
    intro e he
    simp only [insertHandle, List.mem_singleton] at he
    subst he
    exact Or.inl ⟨rfl, Or.inl rfl⟩
  | cons x rest ih =>
    obtain ⟨k, l⟩ := x
    intro e he
    simp only [insertHandle] at he
    by_cases h1 : bef p k = true
    · rw [if_pos h1] at he
      rcases List.mem_cons.mp he with rfl | he'
      · exact Or.inl ⟨rfl, Or.inl rfl⟩
      · exact Or.inr he'
    · rw [if_neg h1] at he
      by_cases h2 : p = k
      · rw [if_pos h2] at he
        rcases List.mem_cons.mp he with rfl | he'
        · exact Or.inl ⟨h2.symm, Or.inr ⟨l, by rw [h2]; exact List.mem_cons_self _ _, rfl⟩⟩
        · exact Or.inr (List.mem_cons_of_mem _ he')
      · rw [if_neg h2] at he
        rcases List.mem_cons.mp he with rfl | he'
        · exact Or.inr (List.mem_cons_self _ _)
        · rcases ih e he' with ⟨hep, hq⟩ | hem
          · refine Or.inl ⟨hep, ?_⟩
            rcases hq with hq | ⟨l', hl', hq⟩
            · exact Or.inl hq
            · exact Or.inr ⟨l', List.mem_cons_of_mem _ hl', hq⟩
          · exact Or.inr (List.mem_cons_of_mem _ hem)

theorem insertHandle_sorted (bef : Nat → Nat → Bool) (m : SideMap) (p h : Nat)
    (htr : ∀ x y z, bef x y = true → bef y z = true → bef x z = true)
    (hto : ∀ x y, x ≠ y → bef x y = true ∨ bef y x = true)
    (hs : m.Pairwise (fun x y => bef x.1 y.1 = true)) :
    (insertHandle bef m p h).Pairwise (fun x y => bef x.1 y.1 = true) := by
  induction m with
  | nil => simp [insertHandle]
  | cons x rest ih =>
    obtain ⟨k, l⟩ := x
    rw [List.pairwise_cons] at hs
    obtain ⟨hhead, htail⟩ := hs
    simp only [insertHandle]
    by_cases h1 : bef p k = true
    · rw [if_pos h1]
      rw [List.pairwise_cons]
      refine ⟨?_, List.Pairwise.cons hhead htail⟩
      intro e he
      rcases List.mem_cons.mp he with rfl | he'
      · exact h1
      · exact htr p k e.1 h1 (hhead e he')
    · rw [if_neg h1]
      by_cases h2 : p = k
      · rw [if_pos h2]
        exact List.Pairwise.cons hhead htail
      · rw [if_neg h2]
        rw [List.pairwise_cons]
        refine ⟨?_, ih htail⟩
        intro e he
        rcases mem_insertHandle bef rest p h e he with ⟨hep, -⟩ | hem
        · rw [hep]
          rcases hto p k h2 with hc | hc
          · exact absurd hc h1
          · exact hc
        · exact hhead e hem

theorem handlesOf_insertHandle (bef : Nat → Nat → Bool) (m : SideMap) (p h : Nat) :
    (handlesOf (insertHandle bef m p h)).Perm (handlesOf m ++ [h]) := by
  induction m with
  | nil => simp [insertHandle, handlesOf]
  | cons x rest ih =>
    obtain ⟨k, l⟩ := x
    simp only [insertHandle]
    by_cases h1 : bef p k = true
    · rw [if_pos h1]
      rw [handlesOf_cons (p := p)]
      exact List.perm_append_comm
    · rw [if_neg h1]
      by_cases h2 : p = k
      · rw [if_pos h2]
        rw [handlesOf_cons, handlesOf_cons, List.append_assoc, List.append_assoc]
        exact List.Perm.append_left l List.perm_append_comm
      · rw [if_neg h2]
        rw [handlesOf_cons, handlesOf_cons, List.append_assoc]
        exact List.Perm.append_left l ih

theorem computeBest_insertHandle (bef : Nat → Nat → Bool) (m : SideMap) (p h : Nat)
    (hir : ∀ x, bef x x = false)
    (htr : ∀ x y z, bef x y = true → bef y z = true → bef x z = true)
    (hs : m.Pairwise (fun x y => bef x.1 y.1 = true)) :
    computeBest (insertHandle bef m p h) =
      match computeBest m with
      | none => some p
      | some v => if bef p v = true then some p else some v := by
  induction m with
  | nil => simp [insertHandle, computeBest_cons, computeBest_nil]
  | cons x rest ih =>
    obtain ⟨k, l⟩ := x
    rw [List.pairwise_cons] at hs
    obtain ⟨hhead, htail⟩ := hs
    simp only [insertHandle]
    by_cases h1 : bef p k = true
    · rw [if_pos h1]
      rw [computeBest_cons p [h] ((k, l) :: rest)]
      have hne : ([h] : List Nat).isEmpty = false := rfl
      rw [hne]
      simp only [Bool.false_eq_true, if_false]
      rcases hcb : computeBest ((k, l) :: rest) with _ | v
      · rfl
      · have hv : bef p v = true := by
          rcases computeBest_mem hcb with ⟨lv, hlv, -⟩
          rcases List.mem_cons.mp hlv with he | he'
          · have : v = k := congrArg Prod.fst he
            rw [this]
            exact h1
          · exact htr p k v h1 (hhead (v, lv) he')
        show some p = if bef p v = true then some p else some v
        rw [if_pos hv]
    · rw [if_neg h1]
      by_cases h2 : p = k
      · rw [if_pos h2]
        rw [computeBest_cons k (l ++ [h]) rest, computeBest_cons k l rest]
        have hne : (l ++ [h]).isEmpty = false := by
          simp
        rw [hne]
        simp only [Bool.false_eq_true, if_false]
        by_cases hl : l.isEmpty
        · rw [if_pos hl]
          rcases hcb : computeBest rest with _ | v
          · rw [h2]
          · have hv : bef p v = true := by
              rcases computeBest_mem hcb with ⟨lv, hlv, -⟩
              rw [h2]
              exact hhead (v, lv) hlv
            show some k = if bef p v = true then some p else some v
            rw [if_pos hv, h2]
        · rw [if_neg hl]
          have hf : bef p k = false := h2 ▸ hir p
          show some k = if bef p k = true then some p else some k
          rw [hf]
          simp
      · rw [if_neg h2]
        rw [computeBest_cons k l (insertHandle bef rest p h), computeBest_cons k l rest]
        by_cases hl : l.isEmpty
        · rw [if_pos hl, if_pos hl]
          exact ih htail
        · rw [if_neg hl, if_neg hl]
          simp [h1]

theorem bef_asymm {bef : Nat → Nat → Bool} (hir : ∀ x, bef x x = false)
    (htr : ∀ x y z, bef x y = true → bef y z = true → bef x z = true)
    {x y : Nat} (h1 : bef x y = true) (h2 : bef y x = true) : False := by
  have := htr x y x h1 h2
  rw [hir x] at this
  cases this

theorem queueAt_eq_nil {m : SideMap} {p : Nat} (h : p ∉ m.map Prod.fst) :
    queueAt m p = [] := by
  have : m.find? (fun e => e.1 == p) = none := by
    rw [List.find?_eq_none]
    intro e he
    simp only [beq_iff_eq]
    intro hep
    exact h (List.mem_map.mpr ⟨e, he, hep⟩)
  simp [queueAt, this]

theorem queueAt_insertHandle (bef : Nat → Nat → Bool) (m : SideMap) (p h : Nat)
    (hir : ∀ x, bef x x = false)
    (htr : ∀ x y z, bef x y = true → bef y z = true → bef x z = true)
    (hs : m.Pairwise (fun x y => bef x.1 y.1 = true)) :
    queueAt (insertHandle bef m p h) p = queueAt m p ++ [h] := by
  induction m with
  | nil => simp [insertHandle, queueAt_cons_self, queueAt, List.find?_nil]
  | cons x rest ih =>
    obtain ⟨k, l⟩ := x
    rw [List.pairwise_cons] at hs
    obtain ⟨hhead, htail⟩ := hs
    simp only [insertHandle]
    by_cases h1 : bef p k = true
    · rw [if_pos h1]
      rw [queueAt_cons_self]
      have hp : p ∉ ((k, l) :: rest).map Prod.fst := by
        intro hmem
        rcases List.mem_map.mp hmem with ⟨e, he, hep⟩
        rcases List.mem_cons.mp he with rfl | he'
        · dsimp only at hep
          rw [hep] at h1
          rw [hir p] at h1
          cases h1
        · exact bef_asymm hir htr h1 (hep ▸ hhead e he')
      rw [queueAt_eq_nil hp]
      rfl
    · rw [if_neg h1]
      by_cases h2 : p = k
      · rw [if_pos h2]
        subst h2
        rw [queueAt_cons_self, queueAt_cons_self]
      · rw [if_neg h2]
        rw [queueAt_cons_ne k l _ p h2, queueAt_cons_ne k l rest p h2]
        exact ih htail

theorem eraseHandle_keys (m : SideMap) (p h : Nat) :
    (eraseHandle m p h).map Prod.fst = m.map Prod.fst := by
  induction m with
  | nil => rfl
  | cons x rest ih =>
    simp only [eraseHandle, List.map_cons] at ih ⊢
    by_cases hx : x.1 = p
    · rw [if_pos hx, ih]
    · rw [if_neg hx, ih]

theorem mem_eraseHandle (m : SideMap) (p h : Nat) :
    ∀ e' ∈ eraseHandle m p h, ∃ e ∈ m, e'.1 = e.1 ∧ List.Sublist e'.2 e.2 := by
  intro e' he'
  rcases List.mem_map.mp he' with ⟨e, he, hee⟩
  by_cases hx : e.1 = p
  · rw [if_pos hx] at hee
    exact ⟨e, he, by rw [← hee], by rw [← hee]; exact List.erase_sublist h e.2⟩
  · rw [if_neg hx] at hee
    exact ⟨e, he, by rw [← hee], by rw [← hee]⟩

theorem handlesOf_eraseHandle (m : SideMap) (p h : Nat) :
    List.Sublist (handlesOf (eraseHandle m p h)) (handlesOf m) := by
  induction m with
  | nil => exact List.Sublist.refl _
  | cons x rest ih =>
    obtain ⟨k, l⟩ := x
    simp only [eraseHandle, List.map_cons]
    by_cases hx : (k, l).1 = p
    · rw [if_pos hx]
      rw [show ((k, l).1, (k, l).2.erase h) = (k, l.erase h) from rfl]
      rw [handlesOf_cons, handlesOf_cons]
      exact List.Sublist.append (List.erase_sublist h l) ih
    · rw [if_neg hx]
      rw [handlesOf_cons, handlesOf_cons]
      exact List.Sublist.append (List.Sublist.refl l) ih

theorem not_mem_handlesOf_eraseHandle (m : SideMap) (price idx : Nat)
    (hnd : (handlesOf m).Nodup)
    (hco : ∀ e ∈ m, idx ∈ e.2 → e.1 = price) :
    idx ∉ handlesOf (eraseHandle m price idx) := by
  induction m with
  | nil => simp [eraseHandle, handlesOf]
  | cons x rest ih =>
    obtain ⟨k, l⟩ := x
    rw [handlesOf_cons, List.nodup_append] at hnd
    obtain ⟨hndl, hndr, -⟩ := hnd
    have hcor : ∀ e ∈ rest, idx ∈ e.2 → e.1 = price :=
      fun e he hi => hco e (List.mem_cons_of_mem _ he) hi
    simp only [eraseHandle, List.map_cons]
    by_cases hx : (k, l).1 = price
    · rw [if_pos hx]
      rw [show ((k, l).1, (k, l).2.erase idx) = (k, l.erase idx) from rfl]
      rw [handlesOf_cons]
      intro hmem
      rcases List.mem_append.mp hmem with hmem | hmem
      · exact hndl.not_mem_erase hmem
      · exact ih hndr hcor hmem
    · rw [if_neg hx]
      rw [handlesOf_cons]
      intro hmem
      rcases List.mem_append.mp hmem with hmem | hmem
      · exact hx (hco (k, l) (List.mem_cons_self _ _) hmem)
      · exact ih hndr hcor hmem

/-! ## Lemmas about the id-index association list -/

theorem mem_mapErase {m : List (Nat × Nat)} {id : Nat} {e : Nat × Nat} :
    e ∈ mapErase m id ↔ e ∈ m ∧ e.1 ≠ id := by
  simp [mapErase, List.mem_filter]

theorem mem_mapInsert {m : List (Nat × Nat)} {id v : Nat} {e : Nat × Nat} :
    e ∈ mapInsert m id v ↔ e = (id, v) ∨ (e ∈ m ∧ e.1 ≠ id) := by
  simp [mapInsert, mem_mapErase]

theorem mapLookup_mapInsert_self (m : List (Nat × Nat)) (id v : Nat) :
    mapLookup (mapInsert m id v) id = some v := by
  simp [mapInsert, mapLookup]

theorem mapLookup_mapErase_self (m : List (Nat × Nat)) (id : Nat) :
    mapLookup (mapErase m id) id = none := by
  induction m with
  | nil => rfl
  | cons e rest ih =>
    by_cases he : e.1 = id
    · simp only [mapErase, List.filter_cons]
      have : (!(e.1 == id)) = false := by simp [he]
      rw [this]
      exact ih
    · simp only [mapErase, List.filter_cons]
      have : (!(e.1 == id)) = true := by simp [he]
      rw [this]
      simp only [mapLookup, if_neg he]
      exact ih

theorem mapLookup_mem {m : List (Nat × Nat)} {id v : Nat}
    (h : mapLookup m id = some v) : (id, v) ∈ m := by
  induction m with
  | nil => cases h
  | cons e rest ih =>
    simp only [mapLookup] at h
    by_cases he : e.1 = id
    · rw [if_pos he] at h
      have : e = (id, v) := by
        obtain ⟨e1, e2⟩ := e
        cases he
        cases Option.some.inj h
        rfl
      rw [← this]
      exact List.mem_cons_self _ _
    · rw [if_neg he] at h
      exact List.mem_cons_of_mem _ (ih h)

theorem mapLookup_eq_none {m : List (Nat × Nat)} {id : Nat} :
    mapLookup m id = none ↔ ∀ v, (id, v) ∉ m := by
  induction m with
  | nil => simp [mapLookup]
  | cons e rest ih =>
    simp only [mapLookup]
    by_cases he : e.1 = id
    · rw [if_pos he]
      simp only [reduceCtorEq, false_iff]
      intro hall
      obtain ⟨e1, e2⟩ := e
      cases he
      exact hall e2 (List.mem_cons_self _ _)
    · rw [if_neg he]
      rw [ih]
      constructor
      · intro hall v hmem
        rcases List.mem_cons.mp hmem with hev | hmem'
        · exact he (by rw [← hev])
        · exact hall v hmem'
      · intro hall v hmem
        exact hall v (List.mem_cons_of_mem _ hmem)

/-! ## The book invariant -/

theorem askBefore_irrefl : ∀ x, askBefore x x = false := by
  intro x; simp [askBefore]

theorem askBefore_trans : ∀ x y z, askBefore x y = true → askBefore y z = true →
    askBefore x z = true := by
  intro x y z h1 h2
  simp only [askBefore, decide_eq_true_eq] at h1 h2 ⊢
  omega

theorem askBefore_total : ∀ x y, x ≠ y → askBefore x y = true ∨ askBefore y x = true := by
  intro x y h
  simp only [askBefore, decide_eq_true_eq]
  omega

theorem bidBefore_irrefl : ∀ x, bidBefore x x = false := by
  intro x; simp [bidBefore]

theorem bidBefore_trans : ∀ x y z, bidBefore x y = true → bidBefore y z = true →
    bidBefore x z = true := by
  intro x y z h1 h2
  simp only [bidBefore, decide_eq_true_eq] at h1 h2 ⊢
  omega

theorem bidBefore_total : ∀ x y, x ≠ y → bidBefore x y = true ∨ bidBefore y x = true := by
  intro x y h
  simp only [bidBefore, decide_eq_true_eq]
  omega

/-- The internal well-formedness invariant of a reachable order book. -/
structure BookInv (b : OrderBook) : Prop where
  asksSorted : b.asks.Pairwise (fun x y => askBefore x.1 y.1 = true)
  bidsSorted : b.bids.Pairwise (fun x y => bidBefore x.1 y.1 = true)
  asksLive : liveAt b.arena b.asks
  bidsLive : liveAt b.arena b.bids
  minAskEq : b.min_ask = computeBest b.asks
  maxBidEq : b.max_bid = computeBest b.bids
  sep : ∀ pa qa pb qb, (pa, qa) ∈ b.asks → qa ≠ [] → (pb, qb) ∈ b.bids → qb ≠ [] → pb < pa
  hndNodup : (handlesOf b.asks ++ handlesOf b.bids).Nodup
  freeFresh : ∀ h ∈ b.arena.free, h ∉ handlesOf b.asks ++ handlesOf b.bids
  freeBound : ∀ h ∈ b.arena.free, h < b.arena.orders.length
  freeNodup : b.arena.free.Nodup
  mapBound : ∀ e ∈ b.arena.order_map, e.2 < b.arena.orders.length
  mapValsNodup : (b.arena.order_map.map Prod.snd).Nodup
  freeUnmapped : ∀ h ∈ b.arena.free, ∀ i, (i, h) ∉ b.arena.order_map

theorem inv_new (cap qcap : Nat) (ts : Bool) : BookInv (OrderBook.new cap qcap ts) := by
  refine ⟨?_, ?_, ?_, ?_, ?_, ?_, ?_, ?_, ?_, ?_, ?_, ?_, ?_, ?_⟩
  · exact List.Pairwise.nil
  · exact List.Pairwise.nil
  · intro p q h hm; simp [OrderBook.new] at hm
  · intro p q h hm; simp [OrderBook.new] at hm
  · rfl
  · rfl
  · intro pa qa pb qb hm; simp [OrderBook.new] at hm
  · simp [OrderBook.new, handlesOf]
  · intro h _ hmem
    simp [OrderBook.new, handlesOf] at hmem
  · intro h hmem
    simp only [OrderBook.new, OrderArena.new, List.mem_reverse, List.mem_range] at hmem
    simpa [OrderBook.new, OrderArena.new] using hmem
  · simp only [OrderBook.new, OrderArena.new]
    exact List.nodup_reverse.mpr (List.nodup_range cap)
  · intro e hmem; simp [OrderBook.new, OrderArena.new] at hmem
  · simp [OrderBook.new, OrderArena.new]
  · intro h _ i hmem; simp [OrderBook.new, OrderArena.new] at hmem

theorem liveAt_mem {a : OrderArena} {L : SideMap} (hl : liveAt a L)
    {e : Nat × List Nat} (he : e ∈ L) :
    ∀ h ∈ e.2, h < a.orders.length ∧ 0 < (arenaAt a h).qty ∧ (arenaAt a h).price = e.1 := by
  obtain ⟨p, q⟩ := e
  intro h hh
  exact hl p q h he hh

theorem containsKey_iff {m : SideMap} {p : Nat} :
    containsKey m p = true ↔ p ∈ m.map Prod.fst := by
  constructor
  · intro h
    rcases List.any_eq_true.mp h with ⟨e, he, hp⟩
    exact List.mem_map.mpr ⟨e, he, by simpa using hp⟩
  · intro h
    rcases List.mem_map.mp h with ⟨e, he, hp⟩
    exact List.any_eq_true.mpr ⟨e, he, by simpa using hp⟩

theorem arenaAt_mk (o : List LimitOrder) (f : List Nat) (m : List (Nat × Nat)) (h : Nat) :
    arenaAt ⟨o, f, m⟩ h = o.getD h ⟨0, 0, 0⟩ := rfl

theorem eraseEntry_fst (p h : Nat) (x : Nat × List Nat) :
    (if x.1 = p then (x.1, x.2.erase h) else x).1 = x.1 := by
  by_cases hx : x.1 = p <;> simp [hx]

/-- `cancel` preserves the book invariant. -/
theorem inv_cancel (b : OrderBook) (id : Nat) (hb : BookInv b) : BookInv (b.cancel id) := by
  unfold OrderBook.cancel
  rcases hget : b.arena.get id with _ | pi
  · have hlook : mapLookup b.arena.order_map id = none := by
      unfold OrderArena.get at hget
      exact Option.map_eq_none'.mp hget
    have hdel : (b.arena.delete id).1 = b.arena := by
      simp [OrderArena.delete, hlook]
    rw [hdel]
    exact hb
  · obtain ⟨price, idx⟩ := pi
    have hget' := hget
    unfold OrderArena.get at hget'
    rcases Option.map_eq_some'.mp hget' with ⟨i, hlook, heq⟩
    have hidx : i = idx := congrArg Prod.snd heq
    subst hidx
    have hprice : price = (arenaAt b.arena i).price := (congrArg Prod.fst heq).symm
    have hmapmem : (id, i) ∈ b.arena.order_map := mapLookup_mem hlook
    have hilen : i < b.arena.orders.length := hb.mapBound _ hmapmem
    have hdel : (b.arena.delete id).1 =
        ⟨b.arena.orders.set i { arenaAt b.arena i with qty := 0 },
         i :: b.arena.free, mapErase b.arena.order_map id⟩ := by
      simp [OrderArena.delete, hlook, hilen]
    -- global no-dup split
    have hndA : (handlesOf b.asks).Nodup := (List.nodup_append.mp hb.hndNodup).1
    have hndB : (handlesOf b.bids).Nodup := (List.nodup_append.mp hb.hndNodup).2.1
    have hdisj : (handlesOf b.asks).Disjoint (handlesOf b.bids) :=
      (List.nodup_append.mp hb.hndNodup).2.2
    -- the queue entries holding `i` are keyed by its price
    have hcoA : ∀ e ∈ b.asks, i ∈ e.2 → e.1 = price := by
      intro e he hi
      have := (liveAt_mem hb.asksLive he) i hi
      rw [hprice]
      exact this.2.2.symm
    have hcoB : ∀ e ∈ b.bids, i ∈ e.2 → e.1 = price := by
      intro e he hi
      have := (liveAt_mem hb.bidsLive he) i hi
      rw [hprice]
      exact this.2.2.symm
    -- `i` does not survive in either side
    have hNA : i ∉ handlesOf (if containsKey b.asks price then
        eraseHandle b.asks price i else b.asks) := by
      by_cases hc : containsKey b.asks price = true
      · rw [if_pos hc]
        exact not_mem_handlesOf_eraseHandle b.asks price i hndA hcoA
      · rw [if_neg hc]
        intro hmem
        rcases mem_handlesOf.mp hmem with ⟨e, he, hi⟩
        exact hc (containsKey_iff.mpr (hcoA e he hi ▸ List.mem_map.mpr ⟨e, he, rfl⟩))
    have hNB : i ∉ handlesOf (if containsKey b.bids price then
        eraseHandle b.bids price i else b.bids) := by
      by_cases hc : containsKey b.bids price = true
      · rw [if_pos hc]
        exact not_mem_handlesOf_eraseHandle b.bids price i hndB hcoB
      · rw [if_neg hc]
        intro hmem
        rcases mem_handlesOf.mp hmem with ⟨e, he, hi⟩
        exact hc (containsKey_iff.mpr (hcoB e he hi ▸ List.mem_map.mpr ⟨e, he, rfl⟩))
    -- sublist facts
    have hsubA : List.Sublist (handlesOf (if containsKey b.asks price then
        eraseHandle b.asks price i else b.asks)) (handlesOf b.asks) := by
      by_cases hc : containsKey b.asks price = true
      · rw [if_pos hc]; exact handlesOf_eraseHandle b.asks price i
      · rw [if_neg hc]
    have hsubB : List.Sublist (handlesOf (if containsKey b.bids price then
        eraseHandle b.bids price i else b.bids)) (handlesOf b.bids) := by
      by_cases hc : containsKey b.bids price = true
      · rw [if_pos hc]; exact handlesOf_eraseHandle b.bids price i
      · rw [if_neg hc]
    -- membership transfer for the erased sides
    have hmemA : ∀ e' ∈ (if containsKey b.asks price then
        eraseHandle b.asks price i else b.asks),
        ∃ e ∈ b.asks, e'.1 = e.1 ∧ List.Sublist e'.2 e.2 := by
      by_cases hc : containsKey b.asks price = true
      · rw [if_pos hc]; exact mem_eraseHandle b.asks price i
      · rw [if_neg hc]
        intro e' he'
        exact ⟨e', he', rfl, List.Sublist.refl _⟩
    have hmemB : ∀ e' ∈ (if containsKey b.bids price then
        eraseHandle b.bids price i else b.bids),
        ∃ e ∈ b.bids, e'.1 = e.1 ∧ List.Sublist e'.2 e.2 := by
      by_cases hc : containsKey b.bids price = true
      · rw [if_pos hc]; exact mem_eraseHandle b.bids price i
      · rw [if_neg hc]
        intro e' he'
        exact ⟨e', he', rfl, List.Sublist.refl _⟩
    have hkeysA : (if containsKey b.asks price then
        eraseHandle b.asks price i else b.asks).map Prod.fst = b.asks.map Prod.fst := by
      by_cases hc : containsKey b.asks price = true
      · rw [if_pos hc]; exact eraseHandle_keys b.asks price i
      · rw [if_neg hc]
    have hkeysB : (if containsKey b.bids price then
        eraseHandle b.bids price i else b.bids).map Prod.fst = b.bids.map Prod.fst := by
      by_cases hc : containsKey b.bids price = true
      · rw [if_pos hc]; exact eraseHandle_keys b.bids price i
      · rw [if_neg hc]
    refine ⟨?_, ?_, ?_, ?_, ?_, ?_, ?_, ?_, ?_, ?_, ?_, ?_, ?_, ?_⟩
    all_goals dsimp only
    · -- asks sorted
      by_cases hc : containsKey b.asks price = true
      · rw [if_pos hc]
        unfold eraseHandle
        rw [List.pairwise_map]
        refine hb.asksSorted.imp ?_
        intro x y hr
        rw [eraseEntry_fst, eraseEntry_fst]
        exact hr
      · rw [if_neg hc]
        exact hb.asksSorted
    · by_cases hc : containsKey b.bids price = true
      · rw [if_pos hc]
        unfold eraseHandle
        rw [List.pairwise_map]
        refine hb.bidsSorted.imp ?_
        intro x y hr
        rw [eraseEntry_fst, eraseEntry_fst]
        exact hr
      · rw [if_neg hc]
        exact hb.bidsSorted
    · -- asks live
      rw [hdel]
      intro p' q' h hm hh
      rcases hmemA (p', q') hm with ⟨e, he, hk, hsub⟩
      have hhe : h ∈ e.2 := hsub.subset hh
      have hold := (liveAt_mem hb.asksLive he) h hhe
      have hne : h ≠ i := by
        intro hcon
        have hmm : h ∈ handlesOf (if containsKey b.asks price = true then
            eraseHandle b.asks price i else b.asks) := mem_handlesOf.mpr ⟨(p', q'), hm, hh⟩
        rw [hcon] at hmm
        exact hNA hmm
      have harr : arenaAt ⟨b.arena.orders.set i { arenaAt b.arena i with qty := 0 },
          i :: b.arena.free, mapErase b.arena.order_map id⟩ h = arenaAt b.arena h := by
        rw [arenaAt_mk]
        exact arenaAt_setQty_ne b.arena i 0 h hne
      rw [harr]
      dsimp only at hk
      rw [hk]
      simp only [List.length_set]
      exact hold
    · -- bids live
      rw [hdel]
      intro p' q' h hm hh
      rcases hmemB (p', q') hm with ⟨e, he, hk, hsub⟩
      have hhe : h ∈ e.2 := hsub.subset hh
      have hold := (liveAt_mem hb.bidsLive he) h hhe
      have hne : h ≠ i := by
        intro hcon
        have hmm : h ∈ handlesOf (if containsKey b.bids price = true then
            eraseHandle b.bids price i else b.bids) := mem_handlesOf.mpr ⟨(p', q'), hm, hh⟩
        rw [hcon] at hmm
        exact hNB hmm
      have harr : arenaAt ⟨b.arena.orders.set i { arenaAt b.arena i with qty := 0 },
          i :: b.arena.free, mapErase b.arena.order_map id⟩ h = arenaAt b.arena h := by
        rw [arenaAt_mk]
        exact arenaAt_setQty_ne b.arena i 0 h hne
      rw [harr]
      dsimp only at hk
      rw [hk]
      simp only [List.length_set]
      exact hold
    · -- min_ask
      by_cases hc : containsKey b.asks price = true
      · rw [if_pos hc, if_pos hc]
      · rw [if_neg hc, if_neg hc]
        exact hb.minAskEq
    · -- max_bid
      by_cases hc : containsKey b.bids price = true
      · rw [if_pos hc, if_pos hc]
      · rw [if_neg hc, if_neg hc]
        exact hb.maxBidEq
    · -- separation
      intro pa qa pb qb hma hqa hmb hqb
      rcases hmemA (pa, qa) hma with ⟨ea, hea, hka, hsa⟩
      rcases hmemB (pb, qb) hmb with ⟨eb, heb, hkb, hsb⟩
      obtain ⟨ea1, ea2⟩ := ea
      obtain ⟨eb1, eb2⟩ := eb
      dsimp only at hka hkb hsa hsb
      have hqa' : ea2 ≠ [] := by
        intro hcon
        rw [hcon] at hsa
        exact hqa (List.sublist_nil.mp hsa)
      have hqb' : eb2 ≠ [] := by
        intro hcon
        rw [hcon] at hsb
        exact hqb (List.sublist_nil.mp hsb)
      have := hb.sep ea1 ea2 eb1 eb2 hea hqa' heb hqb'
      rw [hka, hkb]
      exact this
    · -- handles no-dup
      exact ((hsubA.append hsubB).nodup hb.hndNodup)
    · -- free fresh
      rw [hdel]
      intro h hmem
      dsimp only at hmem
      rcases List.mem_cons.mp hmem with rfl | hmem'
      · intro hcon
        rcases List.mem_append.mp hcon with hcon | hcon
        · exact hNA hcon
        · exact hNB hcon
      · intro hcon
        refine hb.freeFresh h hmem' ?_
        rcases List.mem_append.mp hcon with hcon | hcon
        · exact List.mem_append_left _ (hsubA.subset hcon)
        · exact List.mem_append_right _ (hsubB.subset hcon)
    · -- free bound
      rw [hdel]
      intro h hmem
      dsimp only at hmem ⊢
      simp only [List.length_set]
      rcases List.mem_cons.mp hmem with rfl | hmem'
      · exact hilen
      · exact hb.freeBound h hmem'
    · -- free nodup
      rw [hdel]
      dsimp only
      rw [List.nodup_cons]
      refine ⟨?_, hb.freeNodup⟩
      intro hcon
      exact hb.freeUnmapped i hcon id hmapmem
    · -- map bound
      rw [hdel]
      intro e hmem
      dsimp only at hmem ⊢
      simp only [List.length_set]
      exact hb.mapBound e (mem_mapErase.mp hmem).1
    · -- map values nodup
      rw [hdel]
      dsimp only
      have hsub : List.Sublist (mapErase b.arena.order_map id) b.arena.order_map :=
        List.filter_sublist _
      exact (hsub.map Prod.snd).nodup hb.mapValsNodup
    · -- free unmapped
      rw [hdel]
      intro h hmem j hcon
      dsimp only at hmem hcon
      have hinmap := (mem_mapErase.mp hcon).1
      rcases List.mem_cons.mp hmem with rfl | hmem'
      · -- the freed handle is no longer mapped: map values are duplicate-free
        have hji : j ≠ id := (mem_mapErase.mp hcon).2
        have hinj := List.inj_on_of_nodup_map hb.mapValsNodup
        have : (j, h) = (id, h) := hinj hinmap hmapmem rfl
        exact hji (congrArg Prod.fst this)
      · exact hb.freeUnmapped h hmem' j hinmap

theorem pairwise_fst_of_keys_eq {L L' : SideMap} {R : Nat → Nat → Prop}
    (h : L.map Prod.fst = L'.map Prod.fst)
    (hp : L.Pairwise (fun x y => R x.1 y.1)) :
    L'.Pairwise (fun x y => R x.1 y.1) := by
  have h1 : List.Pairwise R (L.map Prod.fst) := List.pairwise_map.mpr hp
  rw [h] at h1
  exact List.pairwise_map.mp h1

theorem LevelsRel.mem_rev {L L' : SideMap} (h : LevelsRel L L') :
    ∀ e' ∈ L', ∃ e ∈ L, e'.1 = e.1 ∧ e'.2 <:+ e.2 := by
  induction h with
  | nil => intro e' he'; simp at he'
  | cons hxy hrest ih =>
    intro e' he'
    rcases List.mem_cons.mp he' with rfl | he''
    · rename_i x l₁ l₂
      exact ⟨x, List.mem_cons_self _ _, hxy.1.symm, hxy.2⟩
    · rcases ih e' he'' with ⟨e, he, hk, hs⟩
      exact ⟨e, List.mem_cons_of_mem _ he, hk, hs⟩

/-- `match_with_asks` preserves the invariant (the bid side and the arena's
bookkeeping are untouched; the ask side shrinks; `min_ask` is recomputed). -/
theorem inv_matchWithAsks (b : OrderBook) (id qty : Nat) (lp : Option Nat)
    (hb : BookInv b) : BookInv (b.matchWithAsks id qty lp).1 := by
  have hndA : (handlesOf b.asks).Nodup := (List.nodup_append.mp hb.hndNodup).1
  have hdisj : (handlesOf b.asks).Disjoint (handlesOf b.bids) :=
    (List.nodup_append.mp hb.hndNodup).2.2
  unfold OrderBook.matchWithAsks
  set r := matchLoop askBefore b.arena b.asks qty id lp Side.Bid false b.min_ask with hr
  have hrel : LevelsRel b.asks r.levels :=
    ml_levels askBefore b.arena b.asks qty id lp Side.Bid false b.min_ask
  have hkeys : r.levels.map Prod.fst = b.asks.map Prod.fst :=
    ml_keys askBefore b.arena b.asks qty id lp Side.Bid false b.min_ask
  have hfree : r.arena.free = b.arena.free :=
    ml_arena_free askBefore b.arena b.asks qty id lp Side.Bid false b.min_ask
  have hmap : r.arena.order_map = b.arena.order_map :=
    ml_arena_map askBefore b.arena b.asks qty id lp Side.Bid false b.min_ask
  have hlen : r.arena.orders.length = b.arena.orders.length :=
    ml_arena_length askBefore b.arena b.asks qty id lp Side.Bid false b.min_ask
  have hsubl : List.Sublist (handlesOf r.levels) (handlesOf b.asks) :=
    ml_handles_sublist askBefore b.arena b.asks qty id lp Side.Bid false b.min_ask
  refine ⟨?_, ?_, ?_, ?_, ?_, ?_, ?_, ?_, ?_, ?_, ?_, ?_, ?_, ?_⟩
  all_goals dsimp only
  · exact pairwise_fst_of_keys_eq (R := fun a v => askBefore a v = true) hkeys.symm hb.asksSorted
  · exact hb.bidsSorted
  · exact ml_live askBefore b.arena b.asks qty id lp Side.Bid false b.min_ask hndA hb.asksLive
  · -- bids are untouched
    intro p q h hm hh
    have hhb : h ∈ handlesOf b.bids := mem_handlesOf.mpr ⟨(p, q), hm, hh⟩
    have hha : h ∉ handlesOf b.asks := fun hx => hdisj hx hhb
    rw [ml_untouched askBefore b.arena b.asks qty id lp Side.Bid false b.min_ask h hha, hlen]
    exact hb.bidsLive p q h hm hh
  · exact hb.maxBidEq
  · intro pa qa pb qb hma hqa hmb hqb
    rcases hrel.mem_rev (pa, qa) hma with ⟨e, he, hk, hs⟩
    obtain ⟨e1, e2⟩ := e
    dsimp only at hk hs
    have he2 : e2 ≠ [] := by
      intro hcon
      rw [hcon] at hs
      exact hqa (List.sublist_nil.mp hs.sublist)
    have := hb.sep e1 e2 pb qb he he2 hmb hqb
    rw [hk]
    exact this
  · exact (hsubl.append (List.Sublist.refl _)).nodup hb.hndNodup
  · intro h hmem
    rw [hfree] at hmem
    intro hcon
    refine hb.freeFresh h hmem ?_
    rcases List.mem_append.mp hcon with hcon | hcon
    · exact List.mem_append_left _ (hsubl.subset hcon)
    · exact List.mem_append_right _ hcon
  · intro h hmem
    rw [hfree] at hmem
    rw [hlen]
    exact hb.freeBound h hmem
  · rw [hfree]
    exact hb.freeNodup
  · intro e hmem
    rw [hmap] at hmem
    rw [hlen]
    exact hb.mapBound e hmem
  · rw [hmap]
    exact hb.mapValsNodup
  · intro h hmem i
    rw [hfree] at hmem
    rw [hmap]
    exact hb.freeUnmapped h hmem i

/-- `match_with_bids` preserves the invariant. -/
theorem inv_matchWithBids (b : OrderBook) (id qty : Nat) (lp : Option Nat)
    (hb : BookInv b) : BookInv (b.matchWithBids id qty lp).1 := by
  have hndB : (handlesOf b.bids).Nodup := (List.nodup_append.mp hb.hndNodup).2.1
  have hdisj : (handlesOf b.asks).Disjoint (handlesOf b.bids) :=
    (List.nodup_append.mp hb.hndNodup).2.2
  unfold OrderBook.matchWithBids
  set r := matchLoop bidBefore b.arena b.bids qty id lp Side.Ask false b.max_bid with hr
  have hrel : LevelsRel b.bids r.levels :=
    ml_levels bidBefore b.arena b.bids qty id lp Side.Ask false b.max_bid
  have hkeys : r.levels.map Prod.fst = b.bids.map Prod.fst :=
    ml_keys bidBefore b.arena b.bids qty id lp Side.Ask false b.max_bid
  have hfree : r.arena.free = b.arena.free :=
    ml_arena_free bidBefore b.arena b.bids qty id lp Side.Ask false b.max_bid
  have hmap : r.arena.order_map = b.arena.order_map :=
    ml_arena_map bidBefore b.arena b.bids qty id lp Side.Ask false b.max_bid
  have hlen : r.arena.orders.length = b.arena.orders.length :=
    ml_arena_length bidBefore b.arena b.bids qty id lp Side.Ask false b.max_bid
  have hsubl : List.Sublist (handlesOf r.levels) (handlesOf b.bids) :=
    ml_handles_sublist bidBefore b.arena b.bids qty id lp Side.Ask false b.max_bid
  refine ⟨?_, ?_, ?_, ?_, ?_, ?_, ?_, ?_, ?_, ?_, ?_, ?_, ?_, ?_⟩
  all_goals dsimp only
  · exact hb.asksSorted
  · exact pairwise_fst_of_keys_eq (R := fun a v => bidBefore a v = true) hkeys.symm hb.bidsSorted
  · -- asks are untouched
    intro p q h hm hh
    have hha : h ∈ handlesOf b.asks := mem_handlesOf.mpr ⟨(p, q), hm, hh⟩
    have hhb : h ∉ handlesOf b.bids := fun hx => hdisj hha hx
    rw [ml_untouched bidBefore b.arena b.bids qty id lp Side.Ask false b.max_bid h hhb, hlen]
    exact hb.asksLive p q h hm hh
  · exact ml_live bidBefore b.arena b.bids qty id lp Side.Ask false b.max_bid hndB hb.bidsLive
  · exact hb.minAskEq
  · intro pa qa pb qb hma hqa hmb hqb
    rcases hrel.mem_rev (pb, qb) hmb with ⟨e, he, hk, hs⟩
    obtain ⟨e1, e2⟩ := e
    dsimp only at hk hs
    have he2 : e2 ≠ [] := by
      intro hcon
      rw [hcon] at hs
      exact hqb (List.sublist_nil.mp hs.sublist)
    have := hb.sep pa qa e1 e2 hma hqa he he2
    rw [hk]
    exact this
  · exact ((List.Sublist.refl _).append hsubl).nodup hb.hndNodup
  · intro h hmem
    rw [hfree] at hmem
    intro hcon
    refine hb.freeFresh h hmem ?_
    rcases List.mem_append.mp hcon with hcon | hcon
    · exact List.mem_append_left _ hcon
    · exact List.mem_append_right _ (hsubl.subset hcon)
  · intro h hmem
    rw [hfree] at hmem
    rw [hlen]
    exact hb.freeBound h hmem
  · rw [hfree]
    exact hb.freeNodup
  · intro e hmem
    rw [hmap] at hmem
    rw [hlen]
    exact hb.mapBound e hmem
  · rw [hmap]
    exact hb.mapValsNodup
  · intro h hmem i
    rw [hfree] at hmem
    rw [hmap]
    exact hb.freeUnmapped h hmem i

/-! ## Facts about `OrderArena.insert` -/

theorem arena_insert_map (a : OrderArena) (id price qty : Nat) :
    ((a.insert id price qty).1).order_map =
      mapInsert a.order_map id (a.insert id price qty).2 := by
  unfold OrderArena.insert
  rcases a.free with _ | ⟨idx, rest⟩ <;> rfl

theorem arena_insert_len (a : OrderArena) (id price qty : Nat)
    (hfb : ∀ h ∈ a.free, h < a.orders.length) :
    a.orders.length ≤ ((a.insert id price qty).1).orders.length ∧
    (a.insert id price qty).2 < ((a.insert id price qty).1).orders.length := by
  unfold OrderArena.insert
  rcases hf : a.free with _ | ⟨idx, rest⟩
  · simp
  · have : idx < a.orders.length := hfb idx (by rw [hf]; exact List.mem_cons_self _ _)
    simp [this]

theorem arena_insert_at_new (a : OrderArena) (id price qty : Nat)
    (hfb : ∀ h ∈ a.free, h < a.orders.length) :
    arenaAt (a.insert id price qty).1 (a.insert id price qty).2 = ⟨id, qty, price⟩ := by
  unfold OrderArena.insert
  rcases hf : a.free with _ | ⟨idx, rest⟩
  · dsimp only
    rw [arenaAt_mk]
    simp [List.getD_eq_getElem?_getD]
  · have hlt : idx < a.orders.length := hfb idx (by rw [hf]; exact List.mem_cons_self _ _)
    dsimp only
    rw [arenaAt_mk]
    simp [List.getD_eq_getElem?_getD, List.getElem?_set_self hlt]

theorem arena_insert_at_old (a : OrderArena) (id price qty : Nat) (h : Nat)
    (hne : h ≠ (a.insert id price qty).2) :
    arenaAt (a.insert id price qty).1 h = arenaAt a h := by
  unfold OrderArena.insert at hne ⊢
  rcases hf : a.free with _ | ⟨idx, rest⟩
  · rw [hf] at hne
    dsimp only at hne ⊢
    rw [arenaAt_mk, arenaAt]
    rcases Nat.lt_trichotomy h a.orders.length with hlt | heq | hgt
    · simp [List.getD_eq_getElem?_getD, List.getElem?_append_left hlt]
    · exact absurd heq hne
    · rw [List.getD_eq_getElem?_getD, List.getD_eq_getElem?_getD]
      rw [List.getElem?_eq_none (by simpa using hgt), List.getElem?_eq_none (by omega)]
  · rw [hf] at hne
    dsimp only at hne ⊢
    rw [arenaAt_mk, arenaAt]
    simp [List.getD_eq_getElem?_getD, List.getElem?_set_ne (Ne.symm hne)]

theorem arena_insert_free (a : OrderArena) (id price qty : Nat) :
    (a.free = [] ∧ (a.insert id price qty).2 = a.orders.length ∧
      ((a.insert id price qty).1).free = []) ∨
    (a.free = (a.insert id price qty).2 :: ((a.insert id price qty).1).free) := by
  unfold OrderArena.insert
  rcases hf : a.free with _ | ⟨idx, rest⟩
  · exact Or.inl ⟨rfl, rfl, rfl⟩
  · exact Or.inr rfl

/-- Resting a bid residue preserves the invariant, provided the residue is
positive and its price is below every live ask level. -/
theorem inv_rest_bid (b1 : OrderBook) (id price rq : Nat) (hb1 : BookInv b1)
    (hrq : 0 < rq)
    (hsep : ∀ pa qa, (pa, qa) ∈ b1.asks → qa ≠ [] → price < pa) :
    BookInv { b1 with
      arena := (b1.arena.insert id price rq).1,
      bids := insertHandle bidBefore b1.bids price (b1.arena.insert id price rq).2,
      max_bid := match b1.max_bid with
        | none => some price
        | some v => if v < price then some price else some v } := by
  set idx := (b1.arena.insert id price rq).2 with hidx
  set a2 := (b1.arena.insert id price rq).1 with ha2
  have hlen := arena_insert_len b1.arena id price rq hb1.freeBound
  have hnew := arena_insert_at_new b1.arena id price rq hb1.freeBound
  have hold := arena_insert_at_old b1.arena id price rq
  have hmap := arena_insert_map b1.arena id price rq
  have hfreecase := arena_insert_free b1.arena id price rq
  have hfresh : idx ∉ handlesOf b1.asks ++ handlesOf b1.bids := by
    rcases hfreecase with ⟨hf0, hidxlen, -⟩ | hfcons
    · intro hmem
      rw [← hidx] at hidxlen
      rcases List.mem_append.mp hmem with hmem | hmem
      · rcases mem_handlesOf.mp hmem with ⟨e, he, hi⟩
        have := (liveAt_mem hb1.asksLive he) idx hi
        omega
      · rcases mem_handlesOf.mp hmem with ⟨e, he, hi⟩
        have := (liveAt_mem hb1.bidsLive he) idx hi
        omega
    · exact hb1.freeFresh idx (by rw [hfcons, ← hidx]; exact List.mem_cons_self _ _)
  have hfreshA : idx ∉ handlesOf b1.asks :=
    fun hx => hfresh (List.mem_append_left _ hx)
  have hfreshB : idx ∉ handlesOf b1.bids :=
    fun hx => hfresh (List.mem_append_right _ hx)
  have hperm : (handlesOf b1.asks ++ handlesOf (insertHandle bidBefore b1.bids price idx)).Perm
      ((handlesOf b1.asks ++ handlesOf b1.bids) ++ [idx]) := by
    have h1 := handlesOf_insertHandle bidBefore b1.bids price idx
    have h2 := List.Perm.append_left (handlesOf b1.asks) h1
    rw [← List.append_assoc] at h2
    exact h2
  refine ⟨?_, ?_, ?_, ?_, ?_, ?_, ?_, ?_, ?_, ?_, ?_, ?_, ?_, ?_⟩
  all_goals dsimp only
  · exact hb1.asksSorted
  · exact insertHandle_sorted bidBefore b1.bids price idx bidBefore_trans bidBefore_total
      hb1.bidsSorted
  · -- asks live
    intro p q h hm hh
    have hne : h ≠ idx := by
      intro hcon
      exact hfreshA (hcon ▸ mem_handlesOf.mpr ⟨(p, q), hm, hh⟩)
    rw [hold h hne]
    have := hb1.asksLive p q h hm hh
    exact ⟨Nat.lt_of_lt_of_le this.1 hlen.1, this.2.1, this.2.2⟩
  · -- bids live
    intro p q h hm hh
    rcases mem_insertHandle bidBefore b1.bids price idx (p, q) hm with ⟨hp, hq⟩ | hmem
    · dsimp only at hp hq
      subst hp
      have hcases : h ∈ ([idx] : List Nat) ∨ ∃ l, (p, l) ∈ b1.bids ∧ h ∈ l := by
        rcases hq with rfl | ⟨l, hl, rfl⟩
        · exact Or.inl hh
        · rcases List.mem_append.mp hh with hh' | hh'
          · exact Or.inr ⟨l, hl, hh'⟩
          · exact Or.inl hh'
      rcases hcases with hh' | ⟨l, hl, hh'⟩
      · rcases List.mem_singleton.mp hh' with rfl
        rw [hnew]
        exact ⟨hlen.2, hrq, rfl⟩
      · have hne : h ≠ idx := by
          intro hcon
          exact hfreshB (hcon ▸ mem_handlesOf.mpr ⟨(p, l), hl, hh'⟩)
        rw [hold h hne]
        have := hb1.bidsLive p l h hl hh'
        exact ⟨Nat.lt_of_lt_of_le this.1 hlen.1, this.2.1, this.2.2⟩
    · have hne : h ≠ idx := by
        intro hcon
        exact hfreshB (hcon ▸ mem_handlesOf.mpr ⟨(p, q), hmem, hh⟩)
      rw [hold h hne]
      have := hb1.bidsLive p q h hmem hh
      exact ⟨Nat.lt_of_lt_of_le this.1 hlen.1, this.2.1, this.2.2⟩
  · exact hb1.minAskEq
  · -- max_bid
    rw [computeBest_insertHandle bidBefore b1.bids price idx bidBefore_irrefl
      bidBefore_trans hb1.bidsSorted, ← hb1.maxBidEq]
    rcases b1.max_bid with _ | v
    · rfl
    · show (if v < price then some price else some v) =
        if bidBefore price v = true then some price else some v
      by_cases hv : v < price
      · have hbv : bidBefore price v = true := by simp [bidBefore, hv]
        rw [hbv, if_pos hv]
        simp
      · have hbv : bidBefore price v = false := by simp [bidBefore, hv]
        rw [hbv, if_neg hv]
        simp
  · -- separation
    intro pa qa pb qb hma hqa hmb hqb
    rcases mem_insertHandle bidBefore b1.bids price idx (pb, qb) hmb with ⟨hp, -⟩ | hmem
    · dsimp only at hp
      subst hp
      exact hsep pa qa hma hqa
    · exact hb1.sep pa qa pb qb hma hqa hmem hqb
  · -- handles nodup
    rw [hperm.nodup_iff]
    rw [List.nodup_append]
    refine ⟨hb1.hndNodup, List.nodup_singleton idx, ?_⟩
    intro x hx hx2
    rcases List.mem_singleton.mp hx2 with rfl
    exact hfresh hx
  · -- free fresh
    intro h hmem hcon
    rcases hfreecase with ⟨-, -, hf2⟩ | hfcons
    · rw [← ha2] at hf2
      rw [hf2] at hmem
      simp at hmem
    · rw [← ha2, ← hidx] at hfcons
      have hfr : h ∈ b1.arena.free := by
        rw [hfcons]
        exact List.mem_cons_of_mem _ hmem
      have hnd : b1.arena.free.Nodup := hb1.freeNodup
      have hne : h ≠ idx := by
        intro hcon2
        rw [hfcons] at hnd
        rw [List.nodup_cons] at hnd
        exact hnd.1 (hcon2 ▸ hmem)
      rcases List.mem_append.mp hcon with hca | hcb
      · exact hb1.freeFresh h hfr (List.mem_append_left _ hca)
      · have := (handlesOf_insertHandle bidBefore b1.bids price idx).mem_iff.mp hcb
        rcases List.mem_append.mp this with hcb' | hcb'
        · exact hb1.freeFresh h hfr (List.mem_append_right _ hcb')
        · exact hne (List.mem_singleton.mp hcb')
  · -- free bound
    intro h hmem
    rcases hfreecase with ⟨-, -, hf2⟩ | hfcons
    · rw [← ha2] at hf2
      rw [hf2] at hmem
      simp at hmem
    · rw [← ha2, ← hidx] at hfcons
      have hfr : h ∈ b1.arena.free := by
        rw [hfcons]
        exact List.mem_cons_of_mem _ hmem
      exact Nat.lt_of_lt_of_le (hb1.freeBound h hfr) hlen.1
  · -- free nodup
    rcases hfreecase with ⟨-, -, hf2⟩ | hfcons
    · rw [← ha2] at hf2
      rw [hf2]
      exact List.nodup_nil
    · rw [← ha2, ← hidx] at hfcons
      have hnd : b1.arena.free.Nodup := hb1.freeNodup
      rw [hfcons, List.nodup_cons] at hnd
      exact hnd.2
  · -- map bound
    intro e hmem
    rw [hmap, ← hidx] at hmem
    rcases mem_mapInsert.mp hmem with rfl | ⟨hmem', -⟩
    · exact hlen.2
    · exact Nat.lt_of_lt_of_le (hb1.mapBound e hmem') hlen.1
  · -- map values nodup
    rw [hmap, ← hidx]
    unfold mapInsert
    rw [List.map_cons, List.nodup_cons]
    constructor
    · intro hcon
      rcases List.mem_map.mp hcon with ⟨e, he, hev⟩
      have hem : e ∈ b1.arena.order_map := (mem_mapErase.mp he).1
      rcases hfreecase with ⟨-, hil, -⟩ | hfcons
      · rw [← hidx] at hil
        have := hb1.mapBound e hem
        omega
      · rw [← ha2, ← hidx] at hfcons
        have hifree : idx ∈ b1.arena.free := by
          rw [hfcons]
          exact List.mem_cons_self _ _
        obtain ⟨e1, e2⟩ := e
        dsimp only at hev
        subst hev
        exact hb1.freeUnmapped idx hifree e1 hem
    · have hsub : List.Sublist (mapErase b1.arena.order_map id) b1.arena.order_map :=
        List.filter_sublist _
      exact (hsub.map Prod.snd).nodup hb1.mapValsNodup
  · -- free unmapped
    intro h hmem i hcon
    rcases hfreecase with ⟨-, -, hf2⟩ | hfcons
    · rw [← ha2] at hf2
      rw [hf2] at hmem
      simp at hmem
    · rw [← ha2, ← hidx] at hfcons
      have hfr : h ∈ b1.arena.free := by
        rw [hfcons]
        exact List.mem_cons_of_mem _ hmem
      have hnd : b1.arena.free.Nodup := hb1.freeNodup
      have hne : h ≠ idx := by
        intro hcon2
        rw [hfcons, List.nodup_cons] at hnd
        exact hnd.1 (hcon2 ▸ hmem)
      rw [hmap, ← hidx] at hcon
      rcases mem_mapInsert.mp hcon with heq | ⟨hmem', -⟩
      · exact hne (congrArg Prod.snd heq)
      · exact hb1.freeUnmapped h hfr i hmem'

/-- Resting an ask residue preserves the invariant, provided the residue is
positive and its price is above every live bid level.  The `min_ask` update
mirrors the source's two-step lowering. -/
theorem inv_rest_ask (b1 : OrderBook) (id price rq : Nat) (hb1 : BookInv b1)
    (hrq : 0 < rq)
    (hsep : ∀ pb qb, (pb, qb) ∈ b1.bids → qb ≠ [] → pb < price) :
    BookInv { b1 with
      arena := (b1.arena.insert id price rq).1,
      asks := insertHandle askBefore b1.asks price (b1.arena.insert id price rq).2,
      min_ask := match (match b1.min_ask with
          | some a => if price < a then some price else some a
          | none => none) with
        | none => some price
        | some a => if price < a then some price else some a } := by
  set idx := (b1.arena.insert id price rq).2 with hidx
  set a2 := (b1.arena.insert id price rq).1 with ha2
  have hlen := arena_insert_len b1.arena id price rq hb1.freeBound
  have hnew := arena_insert_at_new b1.arena id price rq hb1.freeBound
  have hold := arena_insert_at_old b1.arena id price rq
  have hmap := arena_insert_map b1.arena id price rq
  have hfreecase := arena_insert_free b1.arena id price rq
  have hfresh : idx ∉ handlesOf b1.asks ++ handlesOf b1.bids := by
    rcases hfreecase with ⟨hf0, hidxlen, -⟩ | hfcons
    · intro hmem
      rw [← hidx] at hidxlen
      rcases List.mem_append.mp hmem with hmem | hmem
      · rcases mem_handlesOf.mp hmem with ⟨e, he, hi⟩
        have := (liveAt_mem hb1.asksLive he) idx hi
        omega
      · rcases mem_handlesOf.mp hmem with ⟨e, he, hi⟩
        have := (liveAt_mem hb1.bidsLive he) idx hi
        omega
    · exact hb1.freeFresh idx (by rw [hfcons, ← hidx]; exact List.mem_cons_self _ _)
  have hfreshA : idx ∉ handlesOf b1.asks :=
    fun hx => hfresh (List.mem_append_left _ hx)
  have hfreshB : idx ∉ handlesOf b1.bids :=
    fun hx => hfresh (List.mem_append_right _ hx)
  have hperm : (handlesOf (insertHandle askBefore b1.asks price idx) ++ handlesOf b1.bids).Perm
      ((handlesOf b1.asks ++ handlesOf b1.bids) ++ [idx]) := by
    have h1 := handlesOf_insertHandle askBefore b1.asks price idx
    have h2 := h1.append (List.Perm.refl (handlesOf b1.bids))
    have h3 : ((handlesOf b1.asks ++ [idx]) ++ handlesOf b1.bids).Perm
        ((handlesOf b1.asks ++ handlesOf b1.bids) ++ [idx]) := by
      rw [List.append_assoc, List.append_assoc]
      exact List.Perm.append_left (handlesOf b1.asks) List.perm_append_comm
    exact h2.trans h3
  refine ⟨?_, ?_, ?_, ?_, ?_, ?_, ?_, ?_, ?_, ?_, ?_, ?_, ?_, ?_⟩
  all_goals dsimp only
  · exact insertHandle_sorted askBefore b1.asks price idx askBefore_trans askBefore_total
      hb1.asksSorted
  · exact hb1.bidsSorted
  · -- asks live
    intro p q h hm hh
    rcases mem_insertHandle askBefore b1.asks price idx (p, q) hm with ⟨hp, hq⟩ | hmem
    · dsimp only at hp hq
      subst hp
      have hcases : h ∈ ([idx] : List Nat) ∨ ∃ l, (p, l) ∈ b1.asks ∧ h ∈ l := by
        rcases hq with rfl | ⟨l, hl, rfl⟩
        · exact Or.inl hh
        · rcases List.mem_append.mp hh with hh' | hh'
          · exact Or.inr ⟨l, hl, hh'⟩
          · exact Or.inl hh'
      rcases hcases with hh' | ⟨l, hl, hh'⟩
      · rcases List.mem_singleton.mp hh' with rfl
        rw [hnew]
        exact ⟨hlen.2, hrq, rfl⟩
      · have hne : h ≠ idx := by
          intro hcon
          exact hfreshA (hcon ▸ mem_handlesOf.mpr ⟨(p, l), hl, hh'⟩)
        rw [hold h hne]
        have := hb1.asksLive p l h hl hh'
        exact ⟨Nat.lt_of_lt_of_le this.1 hlen.1, this.2.1, this.2.2⟩
    · have hne : h ≠ idx := by
        intro hcon
        exact hfreshA (hcon ▸ mem_handlesOf.mpr ⟨(p, q), hmem, hh⟩)
      rw [hold h hne]
      have := hb1.asksLive p q h hmem hh
      exact ⟨Nat.lt_of_lt_of_le this.1 hlen.1, this.2.1, this.2.2⟩
  · -- bids live
    intro p q h hm hh
    have hne : h ≠ idx := by
      intro hcon
      exact hfreshB (hcon ▸ mem_handlesOf.mpr ⟨(p, q), hm, hh⟩)
    rw [hold h hne]
    have := hb1.bidsLive p q h hm hh
    exact ⟨Nat.lt_of_lt_of_le this.1 hlen.1, this.2.1, this.2.2⟩
  · -- min_ask
    rw [computeBest_insertHandle askBefore b1.asks price idx askBefore_irrefl
      askBefore_trans hb1.asksSorted, ← hb1.minAskEq]
    rcases b1.min_ask with _ | a
    · rfl
    · show (match (if price < a then some price else some a) with
        | none => some price
        | some x => if price < x then some price else some x) =
        if askBefore price a = true then some price else some a
      by_cases hv : price < a
      · have hba : askBefore price a = true := by simp [askBefore, hv]
        rw [if_pos hv, hba]
        simp only [if_true]
        show (if price < price then some price else some price) = some price
        simp
      · have hba : askBefore price a = false := by simp [askBefore, hv]
        rw [if_neg hv, hba]
        simp only [Bool.false_eq_true, if_false]
        show (if price < a then some price else some a) = some a
        rw [if_neg hv]
  · exact hb1.maxBidEq
  · -- separation
    intro pa qa pb qb hma hqa hmb hqb
    rcases mem_insertHandle askBefore b1.asks price idx (pa, qa) hma with ⟨hp, -⟩ | hmem
    · dsimp only at hp
      subst hp
      exact hsep pb qb hmb hqb
    · exact hb1.sep pa qa pb qb hmem hqa hmb hqb
  · -- handles nodup
    rw [hperm.nodup_iff]
    rw [List.nodup_append]
    refine ⟨hb1.hndNodup, List.nodup_singleton idx, ?_⟩
    intro x hx hx2
    rcases List.mem_singleton.mp hx2 with rfl
    exact hfresh hx
  · -- free fresh
    intro h hmem hcon
    rcases hfreecase with ⟨-, -, hf2⟩ | hfcons
    · rw [← ha2] at hf2
      rw [hf2] at hmem
      simp at hmem
    · rw [← ha2, ← hidx] at hfcons
      have hfr : h ∈ b1.arena.free := by
        rw [hfcons]
        exact List.mem_cons_of_mem _ hmem
      have hnd : b1.arena.free.Nodup := hb1.freeNodup
      have hne : h ≠ idx := by
        intro hcon2
        rw [hfcons, List.nodup_cons] at hnd
        exact hnd.1 (hcon2 ▸ hmem)
      rcases List.mem_append.mp hcon with hca | hcb
      · have := (handlesOf_insertHandle askBefore b1.asks price idx).mem_iff.mp hca
        rcases List.mem_append.mp this with hca' | hca'
        · exact hb1.freeFresh h hfr (List.mem_append_left _ hca')
        · exact hne (List.mem_singleton.mp hca')
      · exact hb1.freeFresh h hfr (List.mem_append_right _ hcb)
  · -- free bound
    intro h hmem
    rcases hfreecase with ⟨-, -, hf2⟩ | hfcons
    · rw [← ha2] at hf2
      rw [hf2] at hmem
      simp at hmem
    · rw [← ha2, ← hidx] at hfcons
      have hfr : h ∈ b1.arena.free := by
        rw [hfcons]
        exact List.mem_cons_of_mem _ hmem
      exact Nat.lt_of_lt_of_le (hb1.freeBound h hfr) hlen.1
  · -- free nodup
    rcases hfreecase with ⟨-, -, hf2⟩ | hfcons
    · rw [← ha2] at hf2
      rw [hf2]
      exact List.nodup_nil
    · rw [← ha2, ← hidx] at hfcons
      have hnd : b1.arena.free.Nodup := hb1.freeNodup
      rw [hfcons, List.nodup_cons] at hnd
      exact hnd.2
  · -- map bound
    intro e hmem
    rw [hmap, ← hidx] at hmem
    rcases mem_mapInsert.mp hmem with rfl | ⟨hmem', -⟩
    · exact hlen.2
    · exact Nat.lt_of_lt_of_le (hb1.mapBound e hmem') hlen.1
  · -- map values nodup
    rw [hmap, ← hidx]
    unfold mapInsert
    rw [List.map_cons, List.nodup_cons]
    constructor
    · intro hcon
      rcases List.mem_map.mp hcon with ⟨e, he, hev⟩
      have hem : e ∈ b1.arena.order_map := (mem_mapErase.mp he).1
      rcases hfreecase with ⟨-, hil, -⟩ | hfcons
      · rw [← hidx] at hil
        have := hb1.mapBound e hem
        omega
      · rw [← ha2, ← hidx] at hfcons
        have hifree : idx ∈ b1.arena.free := by
          rw [hfcons]
          exact List.mem_cons_self _ _
        obtain ⟨e1, e2⟩ := e
        dsimp only at hev
        subst hev
        exact hb1.freeUnmapped idx hifree e1 hem
    · have hsub : List.Sublist (mapErase b1.arena.order_map id) b1.arena.order_map :=
        List.filter_sublist _
      exact (hsub.map Prod.snd).nodup hb1.mapValsNodup
  · -- free unmapped
    intro h hmem i hcon
    rcases hfreecase with ⟨-, -, hf2⟩ | hfcons
    · rw [← ha2] at hf2
      rw [hf2] at hmem
      simp at hmem
    · rw [← ha2, ← hidx] at hfcons
      have hfr : h ∈ b1.arena.free := by
        rw [hfcons]
        exact List.mem_cons_of_mem _ hmem
      have hnd : b1.arena.free.Nodup := hb1.freeNodup
      have hne : h ≠ idx := by
        intro hcon2
        rw [hfcons, List.nodup_cons] at hnd
        exact hnd.1 (hcon2 ▸ hmem)
      rw [hmap, ← hidx] at hcon
      rcases mem_mapInsert.mp hcon with heq | ⟨hmem', -⟩
      · exact hne (congrArg Prod.snd heq)
      · exact hb1.freeUnmapped h hfr i hmem'

theorem stop_mono_of_sorted (bef : Nat → Nat → Bool) (L : SideMap) (lp : Option Nat)
    (htr : ∀ x y z, bef x y = true → bef y z = true → bef x z = true)
    (hs : L.Pairwise (fun x y => bef x.1 y.1 = true)) :
    L.Pairwise (fun x y => stopHere bef lp x.1 = true → stopHere bef lp y.1 = true) := by
  refine hs.imp ?_
  intro x y hr hst
  rcases lp with _ | l
  · cases hst
  · exact htr l x.1 y.1 hst hr

/-- `limit` preserves the invariant. -/
theorem inv_limit (b : OrderBook) (id : Nat) (side : Side) (qty price : Nat)
    (hb : BookInv b) : BookInv (b.limit id side qty price).book := by
  cases side
  · -- Bid
    show BookInv (OrderBook.limit b id Side.Bid qty price).book
    dsimp only [OrderBook.limit]
    set m := b.matchWithAsks id qty (some price) with hm
    have hb1 : BookInv m.1 := inv_matchWithAsks b id qty (some price) hb
    by_cases hrq : 0 < m.2.2
    · rw [if_pos hrq]
      dsimp only
      refine inv_rest_bid m.1 id price m.2.2 hb1 hrq ?_
      intro pa qa hma hqa
      have hasks : m.1.asks =
          (matchLoop askBefore b.arena b.asks qty id (some price) Side.Bid
            false b.min_ask).levels := rfl
      have hrem : m.2.2 =
          (matchLoop askBefore b.arena b.asks qty id (some price) Side.Bid
            false b.min_ask).remaining := rfl
      rw [hasks] at hma
      rw [hrem] at hrq
      by_contra hlt
      have hstop : stopHere askBefore (some price) (pa, qa).1 = false := by
        simp only [stopHere, askBefore]
        simpa using hlt
      exact hqa (ml_exhaust askBefore b.arena b.asks qty id (some price) Side.Bid
        false b.min_ask
        (stop_mono_of_sorted askBefore b.asks (some price) askBefore_trans hb.asksSorted)
        hrq (pa, qa) hma hstop)
    · rw [if_neg hrq]
      exact hb1
  · -- Ask
    show BookInv (OrderBook.limit b id Side.Ask qty price).book
    dsimp only [OrderBook.limit]
    set m := b.matchWithBids id qty (some price) with hm
    have hb1 : BookInv m.1 := inv_matchWithBids b id qty (some price) hb
    by_cases hrq : 0 < m.2.2
    · rw [if_pos hrq]
      dsimp only
      refine inv_rest_ask m.1 id price m.2.2 hb1 hrq ?_
      intro pb qb hmb hqb
      have hbids : m.1.bids =
          (matchLoop bidBefore b.arena b.bids qty id (some price) Side.Ask
            false b.max_bid).levels := rfl
      have hrem : m.2.2 =
          (matchLoop bidBefore b.arena b.bids qty id (some price) Side.Ask
            false b.max_bid).remaining := rfl
      rw [hbids] at hmb
      rw [hrem] at hrq
      by_contra hlt
      have hstop : stopHere bidBefore (some price) (pb, qb).1 = false := by
        simp only [stopHere, bidBefore]
        simpa using hlt
      exact hqb (ml_exhaust bidBefore b.arena b.bids qty id (some price) Side.Ask
        false b.max_bid
        (stop_mono_of_sorted bidBefore b.bids (some price) bidBefore_trans hb.bidsSorted)
        hrq (pb, qb) hmb hstop)
    · rw [if_neg hrq]
      exact hb1

/-- `market` preserves the invariant. -/
theorem inv_market (b : OrderBook) (id : Nat) (side : Side) (qty : Nat)
    (hb : BookInv b) : BookInv (b.market id side qty).book := by
  cases side
  · exact inv_matchWithAsks b id qty none hb
  · exact inv_matchWithBids b id qty none hb

theorem executeInner_fst_market (b : OrderBook) (id : Nat) (side : Side) (qty : Nat) :
    (b.executeInner (OrderType.Market id side qty)).1 = (b.market id side qty).book := by
  dsimp only [OrderBook.executeInner]
  split_ifs <;> rfl

theorem executeInner_fst_limit (b : OrderBook) (id : Nat) (side : Side) (qty price : Nat) :
    (b.executeInner (OrderType.Limit id side qty price)).1 =
      (b.limit id side qty price).book := by
  dsimp only [OrderBook.executeInner]
  split_ifs <;> rfl

theorem inv_executeInner (b : OrderBook) (cmd : OrderType) (hb : BookInv b) :
    BookInv (b.executeInner cmd).1 := by
  cases cmd with
  | Market id side qty =>
    rw [executeInner_fst_market]
    exact inv_market b id side qty hb
  | Limit id side qty price =>
    rw [executeInner_fst_limit]
    exact inv_limit b id side qty price hb
  | Cancel id =>
    exact inv_cancel b id hb

/-- The invariant only mentions the matching state, not the statistics. -/
theorem inv_congr (b b' : OrderBook) (hb : BookInv b)
    (ha : b'.asks = b.asks) (hv : b'.bids = b.bids) (hr : b'.arena = b.arena)
    (hmn : b'.min_ask = b.min_ask) (hmx : b'.max_bid = b.max_bid) : BookInv b' := by
  refine ⟨?_, ?_, ?_, ?_, ?_, ?_, ?_, ?_, ?_, ?_, ?_, ?_, ?_, ?_⟩ <;>
    simp only [ha, hv, hr, hmn, hmx] <;> first
      | exact hb.asksSorted
      | exact hb.bidsSorted
      | exact hb.asksLive
      | exact hb.bidsLive
      | exact hb.minAskEq
      | exact hb.maxBidEq
      | exact hb.sep
      | exact hb.hndNodup
      | exact hb.freeFresh
      | exact hb.freeBound
      | exact hb.freeNodup
      | exact hb.mapBound
      | exact hb.mapValsNodup
      | exact hb.freeUnmapped

theorem inv_execute (b : OrderBook) (cmd : OrderType) (hb : BookInv b) :
    BookInv (b.execute cmd).1 := by
  have hinner := inv_executeInner b cmd hb
  unfold OrderBook.execute
  rcases hie : b.executeInner cmd with ⟨b1, ev⟩
  rw [hie] at hinner
  dsimp only
  by_cases hts : (!b1.track_stats) = true
  · rw [if_pos hts]
    exact hinner
  · rw [if_neg hts]
    cases ev <;> dsimp only <;>
      first
        | exact hinner
        | exact inv_congr _ _ hinner rfl rfl rfl rfl rfl

/-- Every reachable book satisfies the invariant. -/
theorem reachable_inv {b : OrderBook} (hb : Reachable b) : BookInv b := by
  induction hb with
  | init cap qcap ts => exact inv_new cap qcap ts
  | step b cmd _ ih => exact inv_execute b cmd ih
  | track b t _ ih => exact inv_congr _ _ ih rfl rfl rfl rfl rfl

/-! ## Support lemmas for the claim theorems -/

theorem delete_fst_of_lookup_none (a : OrderArena) (id : Nat)
    (h : mapLookup a.order_map id = none) : (a.delete id).1 = a := by
  unfold OrderArena.delete
  rw [h]

theorem cancel_arena (b : OrderBook) (id : Nat) :
    (b.cancel id).arena = (b.arena.delete id).1 := by
  unfold OrderBook.cancel
  rcases b.arena.get id with _ | ⟨price, idx⟩
  · rfl
  · rfl

theorem delete_map (a : OrderArena) (id : Nat) :
    ((a.delete id).1).order_map =
      match mapLookup a.order_map id with
      | none => a.order_map
      | some _ => mapErase a.order_map id := by
  unfold OrderArena.delete
  rcases h : mapLookup a.order_map id with _ | idx
  · rfl
  · dsimp only
    split_ifs <;> rfl

theorem cancel_lookup_none (b : OrderBook) (id : Nat) :
    mapLookup ((b.cancel id).arena).order_map id = none := by
  rw [cancel_arena, delete_map]
  rcases h : mapLookup b.arena.order_map id with _ | idx
  · exact h
  · exact mapLookup_mapErase_self b.arena.order_map id

theorem cancel_of_get_none (b : OrderBook) (id : Nat) (h : b.arena.get id = none) :
    b.cancel id = b := by
  have hln : mapLookup b.arena.order_map id = none := Option.map_eq_none'.mp h
  unfold OrderBook.cancel
  rw [h, delete_fst_of_lookup_none b.arena id hln]

theorem cancel_cancel (b : OrderBook) (id : Nat) :
    (b.cancel id).cancel id = b.cancel id := by
  refine cancel_of_get_none _ _ ?_
  unfold OrderArena.get
  rw [cancel_lookup_none]
  rfl

theorem execute_cancel (b : OrderBook) (id : Nat) :
    b.execute (OrderType.Cancel id) = (b.cancel id, OrderEvent.Canceled id) := by
  unfold OrderBook.execute OrderBook.executeInner
  dsimp only
  by_cases hts : (!(b.cancel id).track_stats) = true
  · rw [if_pos hts]
  · rw [if_neg hts]

theorem execute_snd (b : OrderBook) (cmd : OrderType) :
    (b.execute cmd).2 = (b.executeInner cmd).2 := by
  unfold OrderBook.execute
  rcases hie : b.executeInner cmd with ⟨b1, ev⟩
  dsimp only
  by_cases hts : (!b1.track_stats) = true
  · rw [if_pos hts]
  · rw [if_neg hts]
    cases ev <;> rfl

theorem match_asks_spec (b : OrderBook) (id qty : Nat) (lp : Option Nat) :
    (b.matchWithAsks id qty lp).2.2 ≤ qty ∧
    fillsQty (b.matchWithAsks id qty lp).2.1 = qty - (b.matchWithAsks id qty lp).2.2 := by
  exact ⟨ml_remaining_le askBefore b.arena b.asks qty id lp Side.Bid false b.min_ask,
    ml_fills_sum askBefore b.arena b.asks qty id lp Side.Bid false b.min_ask⟩

theorem match_bids_spec (b : OrderBook) (id qty : Nat) (lp : Option Nat) :
    (b.matchWithBids id qty lp).2.2 ≤ qty ∧
    fillsQty (b.matchWithBids id qty lp).2.1 = qty - (b.matchWithBids id qty lp).2.2 := by
  exact ⟨ml_remaining_le bidBefore b.arena b.bids qty id lp Side.Ask false b.max_bid,
    ml_fills_sum bidBefore b.arena b.bids qty id lp Side.Ask false b.max_bid⟩

/-- What the fills, partial flag and filled quantity of a `market` call satisfy. -/
theorem market_spec (b : OrderBook) (id : Nat) (side : Side) (qty : Nat) :
    ((b.market id side qty).isPartial = true ↔
      0 < qty - (b.market id side qty).filled) ∧
    (b.market id side qty).filled ≤ qty ∧
    fillsQty (b.market id side qty).fills = (b.market id side qty).filled := by
  cases side
  · obtain ⟨h1, h2⟩ := match_asks_spec b id qty none
    unfold OrderBook.market
    dsimp only
    refine ⟨?_, Nat.sub_le _ _, ?_⟩
    · rw [decide_eq_true_eq]
      omega
    · rw [h2]
  · obtain ⟨h1, h2⟩ := match_bids_spec b id qty none
    unfold OrderBook.market
    dsimp only
    refine ⟨?_, Nat.sub_le _ _, ?_⟩
    · rw [decide_eq_true_eq]
      omega
    · rw [h2]

/-- What the fills, partial flag and filled quantity of a `limit` call satisfy. -/
theorem limit_spec (b : OrderBook) (id : Nat) (side : Side) (qty price : Nat) :
    ((b.limit id side qty price).isPartial = true ↔
      0 < qty - (b.limit id side qty price).filled) ∧
    (b.limit id side qty price).filled ≤ qty ∧
    fillsQty (b.limit id side qty price).fills = (b.limit id side qty price).filled := by
  cases side
  · obtain ⟨h1, h2⟩ := match_asks_spec b id qty (some price)
    dsimp only [OrderBook.limit]
    by_cases hrq : 0 < (b.matchWithAsks id qty (some price)).2.2
    · rw [if_pos hrq]
      dsimp only
      refine ⟨?_, Nat.sub_le _ _, ?_⟩
      · refine ⟨fun _ => ?_, fun _ => rfl⟩
        omega
      · rw [h2]
    · rw [if_neg hrq]
      dsimp only
      refine ⟨?_, Nat.sub_le _ _, ?_⟩
      · constructor
        · intro hc
          exact absurd hc (by simp)
        · intro hc
          exact absurd hc (by omega)
      · rw [h2]
  · obtain ⟨h1, h2⟩ := match_bids_spec b id qty (some price)
    dsimp only [OrderBook.limit]
    by_cases hrq : 0 < (b.matchWithBids id qty (some price)).2.2
    · rw [if_pos hrq]
      dsimp only
      refine ⟨?_, Nat.sub_le _ _, ?_⟩
      · refine ⟨fun _ => ?_, fun _ => rfl⟩
        omega
      · rw [h2]
    · rw [if_neg hrq]
      dsimp only
      refine ⟨?_, Nat.sub_le _ _, ?_⟩
      · constructor
        · intro hc
          exact absurd hc (by simp)
        · intro hc
          exact absurd hc (by omega)
      · rw [h2]

/-! ## Claim theorems -/

/-- The outcome constraints for a market command: `Unfilled` means no fills,
`PartiallyFilled`/`Filled` carry the produced quantity and fills with the
under- or exact-fill condition, and no other event variant can occur. -/
def marketEventOk (q fq : Nat) (fs : List FillMetadata) : OrderEvent → Prop
  | OrderEvent.Unfilled _ => fs = []
  | OrderEvent.Placed _ => False
  | OrderEvent.Canceled _ => False
  | OrderEvent.PartiallyFilled _ fq' fs' => fq' = fq ∧ fs' = fs ∧ fq < q ∧ fs ≠ []
  | OrderEvent.Filled _ fq' fs' => fq' = fq ∧ fs' = fs ∧ fq = q ∧ fs ≠ []

/-- The outcome constraints for a limit command: `Placed` means no fills. -/
def limitEventOk (q fq : Nat) (fs : List FillMetadata) : OrderEvent → Prop
  | OrderEvent.Unfilled _ => False
  | OrderEvent.Placed _ => fs = []
  | OrderEvent.Canceled _ => False
  | OrderEvent.PartiallyFilled _ fq' fs' => fq' = fq ∧ fs' = fs ∧ fq < q ∧ fs ≠ []
  | OrderEvent.Filled _ fq' fs' => fq' = fq ∧ fs' = fs ∧ fq = q ∧ fs ≠ []

/-- C5: the event variant characterizes the outcome.  `PartiallyFilled` implies
`filled_qty < qty` and a non-empty fills vector, `Filled` implies
`filled_qty = qty` and a non-empty fills vector, `Unfilled` and `Placed` imply
zero fills; a market with no fills yields `Unfilled` and a limit with no fills
yields `Placed` (the only variants a market resp. limit can produce are
excluded otherwise by the `False` clauses). -/
theorem claim_C5_event_variants (b : OrderBook) (id : Nat) (side : Side)
    (qty price : Nat) :
    marketEventOk qty (b.market id side qty).filled (b.market id side qty).fills
      (b.execute (OrderType.Market id side qty)).2 ∧
    limitEventOk qty (b.limit id side qty price).filled (b.limit id side qty price).fills
      (b.execute (OrderType.Limit id side qty price)).2 := by
  constructor
  · rw [execute_snd]
    obtain ⟨hpart, hle, -⟩ := market_spec b id side qty
    dsimp only [OrderBook.executeInner]
    by_cases he : (b.market id side qty).fills.isEmpty = true
    · rw [if_pos he]
      exact List.isEmpty_iff.mp he
    · rw [if_neg he]
      by_cases hp : (b.market id side qty).isPartial = true
      · rw [if_pos hp]
        have := hpart.mp hp
        exact ⟨rfl, rfl, by omega, fun hc => he (by rw [hc]; rfl)⟩
      · rw [if_neg hp]
        have : ¬0 < qty - (b.market id side qty).filled := fun hc => hp (hpart.mpr hc)
        exact ⟨rfl, rfl, by omega, fun hc => he (by rw [hc]; rfl)⟩
  · rw [execute_snd]
    obtain ⟨hpart, hle, -⟩ := limit_spec b id side qty price
    dsimp only [OrderBook.executeInner]
    by_cases he : (b.limit id side qty price).fills.isEmpty = true
    · rw [if_pos he]
      exact List.isEmpty_iff.mp he
    · rw [if_neg he]
      by_cases hp : (b.limit id side qty price).isPartial = true
      · rw [if_pos hp]
        have := hpart.mp hp
        exact ⟨rfl, rfl, by omega, fun hc => he (by rw [hc]; rfl)⟩
      · rw [if_neg hp]
        have : ¬0 < qty - (b.limit id side qty price).filled := fun hc => hp (hpart.mpr hc)
        exact ⟨rfl, rfl, by omega, fun hc => he (by rw [hc]; rfl)⟩

/-- The fills carried by a `Filled` or `PartiallyFilled` event sum to the
event's `filled_qty` field. -/
def eventFillsOk : OrderEvent → Prop
  | OrderEvent.PartiallyFilled _ fq fs => fillsQty fs = fq
  | OrderEvent.Filled _ fq fs => fillsQty fs = fq
  | _ => True

/-- C6: for every command, the sum of `fill.qty` over the fills returned in the
event equals the event's `filled_qty` field. -/
theorem claim_C6_fills_sum (b : OrderBook) (cmd : OrderType) :
    eventFillsOk (b.execute cmd).2 := by
  rw [execute_snd]
  cases cmd with
  | Market id side qty =>
    obtain ⟨-, -, hsum⟩ := market_spec b id side qty
    dsimp only [OrderBook.executeInner]
    by_cases he : (b.market id side qty).fills.isEmpty = true
    · rw [if_pos he]
      trivial
    · rw [if_neg he]
      by_cases hp : (b.market id side qty).isPartial = true
      · rw [if_pos hp]
        exact hsum
      · rw [if_neg hp]
        exact hsum
  | Limit id side qty price =>
    obtain ⟨-, -, hsum⟩ := limit_spec b id side qty price
    dsimp only [OrderBook.executeInner]
    by_cases he : (b.limit id side qty price).fills.isEmpty = true
    · rw [if_pos he]
      trivial
    · rw [if_neg he]
      by_cases hp : (b.limit id side qty price).isPartial = true
      · rw [if_pos hp]
        exact hsum
      · rw [if_neg hp]
        exact hsum
  | Cancel id =>
    trivial

/-- C8: `Cancel` always returns `Canceled id`, even for an unknown id, and is
idempotent: a second `Cancel id` returns `Canceled id` again and leaves the
entire book state (arena, both side maps, trackers and statistics) exactly as
after the first cancel. -/
theorem claim_C8_cancel_idempotent (b : OrderBook) (id : Nat) :
    (b.execute (OrderType.Cancel id)).2 = OrderEvent.Canceled id ∧
    (b.execute (OrderType.Cancel id)).1.execute (OrderType.Cancel id) =
      ((b.execute (OrderType.Cancel id)).1, OrderEvent.Canceled id) := by
  rw [execute_cancel]
  dsimp only
  refine ⟨rfl, ?_⟩
  rw [execute_cancel, cancel_cancel]

/-- C9: `spread()` returns `min_ask - max_bid` precisely when both trackers are
set (and `None` otherwise), and on every reachable book the unsigned
subtraction cannot underflow: `max_bid ≤ min_ask` whenever both are set. -/
theorem claim_C9_spread_no_underflow (b : OrderBook) (hb : Reachable b) :
    (b.spread = match b.max_bid, b.min_ask with
      | some v, some a => some (a - v)
      | _, _ => none) ∧
    (∀ v a, b.max_bid = some v → b.min_ask = some a → v ≤ a) := by
  have hinv := reachable_inv hb
  refine ⟨rfl, ?_⟩
  intro v a hv ha
  rw [hinv.maxBidEq] at hv
  rw [hinv.minAskEq] at ha
  rcases computeBest_mem hv with ⟨lv, hlv, hlvne⟩
  rcases computeBest_mem ha with ⟨la, hla, hlane⟩
  exact Nat.le_of_lt (hinv.sep a la v lv hla hlane hlv hlvne)

/-- C2: after every command of every command sequence started from a fresh
book, either `max_bid < min_ask` or at least one of the two trackers is unset
(this is proved for arbitrary command sequences, in particular for those whose
ids are unique among live resting orders and whose quantities are positive). -/
theorem claim_C2_book_uncrossed (b : OrderBook) (hb : Reachable b) :
    ∀ v a, b.max_bid = some v → b.min_ask = some a → v < a := by
  have hinv := reachable_inv hb
  intro v a hv ha
  rw [hinv.maxBidEq] at hv
  rw [hinv.minAskEq] at ha
  rcases computeBest_mem hv with ⟨lv, hlv, hlvne⟩
  rcases computeBest_mem ha with ⟨la, hla, hlane⟩
  exact hinv.sep a la v lv hla hlane hlv hlvne

/-- Minimum of a list of prices, `none` when empty (spec-side definition). -/
def listMin : List Nat → Option Nat
  | [] => none
  | x :: xs => some (xs.foldl Nat.min x)

/-- Maximum of a list of prices, `none` when empty (spec-side definition). -/
def listMax : List Nat → Option Nat
  | [] => none
  | x :: xs => some (xs.foldl Nat.max x)

/-- Formalised from the spec's words: the minimum price among ask-side queues
that contain at least one resting order with `qty > 0`. -/
def specMinLiveAsk (b : OrderBook) : Option Nat :=
  listMin ((b.asks.filter
    (fun e => e.2.any (fun h => decide (0 < (arenaAt b.arena h).qty)))).map Prod.fst)

/-- Formalised from the spec's words: the maximum price among bid-side queues
that contain at least one resting order with `qty > 0`. -/
def specMaxLiveBid (b : OrderBook) : Option Nat :=
  listMax ((b.bids.filter
    (fun e => e.2.any (fun h => decide (0 < (arenaAt b.arena h).qty)))).map Prod.fst)

theorem find?_eq_head_filter (p : (Nat × List Nat) → Bool) (l : SideMap) :
    l.find? p = (l.filter p).head? := by
  induction l with
  | nil => rfl
  | cons x rest ih =>
    by_cases hx : p x = true
    · rw [List.find?_cons_of_pos _ hx, List.filter_cons_of_pos hx]
      rfl
    · rw [List.find?_cons_of_neg _ hx, List.filter_cons_of_neg hx]
      exact ih

theorem foldl_min_of_le (x : Nat) (xs : List Nat) (h : ∀ y ∈ xs, x ≤ y) :
    xs.foldl Nat.min x = x := by
  induction xs generalizing x with
  | nil => rfl
  | cons y ys ih =>
    have hxy : Nat.min x y = x :=
      Nat.min_eq_left (h y (List.mem_cons_self _ _))
    simp only [List.foldl_cons, hxy]
    exact ih x (fun z hz => h z (List.mem_cons_of_mem _ hz))

theorem foldl_max_of_ge (x : Nat) (xs : List Nat) (h : ∀ y ∈ xs, y ≤ x) :
    xs.foldl Nat.max x = x := by
  induction xs generalizing x with
  | nil => rfl
  | cons y ys ih =>
    have hxy : Nat.max x y = x :=
      Nat.max_eq_left (h y (List.mem_cons_self _ _))
    simp only [List.foldl_cons, hxy]
    exact ih x (fun z hz => h z (List.mem_cons_of_mem _ hz))

theorem listMin_sorted (l : List Nat) (hs : l.Pairwise (· ≤ ·)) :
    listMin l = l.head? := by
  cases l with
  | nil => rfl
  | cons x xs =>
    rw [List.pairwise_cons] at hs
    simp only [listMin, List.head?_cons]
    rw [foldl_min_of_le x xs hs.1]

theorem listMax_sorted (l : List Nat) (hs : l.Pairwise (fun a v => v ≤ a)) :
    listMax l = l.head? := by
  cases l with
  | nil => rfl
  | cons x xs =>
    rw [List.pairwise_cons] at hs
    simp only [listMax, List.head?_cons]
    rw [foldl_max_of_ge x xs hs.1]

/-- C3: after every command from a fresh book, `min_ask` equals the minimum
price among ask queues holding a resting order with positive quantity (and is
`none` when there is none), and `max_bid` symmetrically equals the maximum
such bid price; empty hole queues left in the maps do not affect either
tracker. -/
theorem claim_C3_trackers_exact (b : OrderBook) (hb : Reachable b) :
    b.min_ask = specMinLiveAsk b ∧ b.max_bid = specMaxLiveBid b := by
  have hinv := reachable_inv hb
  constructor
  · rw [hinv.minAskEq]
    unfold computeBest specMinLiveAsk
    rw [find?_eq_head_filter]
    have hcong : b.asks.filter (fun e => !e.2.isEmpty) =
        b.asks.filter
          (fun e => e.2.any (fun h => decide (0 < (arenaAt b.arena h).qty))) := by
      refine List.filter_congr ?_
      intro e he
      dsimp only
      rcases hq : e.2 with _ | ⟨h, hs⟩
      · simp
      · have hlive := (liveAt_mem hinv.asksLive he) h (by rw [hq]; exact List.mem_cons_self _ _)
        have hd : decide (0 < (arenaAt b.arena h).qty) = true := decide_eq_true hlive.2.1
        rw [List.any_cons, hd]
        simp
    rw [hcong]
    have hsorted : ((b.asks.filter
        (fun e => e.2.any (fun h => decide (0 < (arenaAt b.arena h).qty)))).map
          Prod.fst).Pairwise (· ≤ ·) := by
      have h1 : (b.asks.filter
          (fun e => e.2.any (fun h => decide (0 < (arenaAt b.arena h).qty)))).Pairwise
            (fun x y => askBefore x.1 y.1 = true) :=
        hinv.asksSorted.sublist (List.filter_sublist _)
      refine List.Pairwise.map Prod.fst ?_ h1
      intro x y hxy
      simp only [askBefore, decide_eq_true_eq] at hxy
      omega
    rw [listMin_sorted _ hsorted, List.head?_map]
  · rw [hinv.maxBidEq]
    unfold computeBest specMaxLiveBid
    rw [find?_eq_head_filter]
    have hcong : b.bids.filter (fun e => !e.2.isEmpty) =
        b.bids.filter
          (fun e => e.2.any (fun h => decide (0 < (arenaAt b.arena h).qty))) := by
      refine List.filter_congr ?_
      intro e he
      dsimp only
      rcases hq : e.2 with _ | ⟨h, hs⟩
      · simp
      · have hlive := (liveAt_mem hinv.bidsLive he) h (by rw [hq]; exact List.mem_cons_self _ _)
        have hd : decide (0 < (arenaAt b.arena h).qty) = true := decide_eq_true hlive.2.1
        rw [List.any_cons, hd]
        simp
    rw [hcong]
    have hsorted : ((b.bids.filter
        (fun e => e.2.any (fun h => decide (0 < (arenaAt b.arena h).qty)))).map
          Prod.fst).Pairwise (fun a v => v ≤ a) := by
      have h1 : (b.bids.filter
          (fun e => e.2.any (fun h => decide (0 < (arenaAt b.arena h).qty)))).Pairwise
            (fun x y => bidBefore x.1 y.1 = true) :=
        hinv.bidsSorted.sublist (List.filter_sublist _)
      refine List.Pairwise.map Prod.fst ?_ h1
      intro x y hxy
      simp only [bidBefore, decide_eq_true_eq] at hxy
      omega
    rw [listMax_sorted _ hsorted, List.head?_map]

/-! ## Zero-quantity commands -/

theorem matchWithAsks_zero (b : OrderBook) (hb : BookInv b) (id : Nat) (lp : Option Nat) :
    b.matchWithAsks id 0 lp = (b, [], 0) := by
  obtain ⟨hL, ha, hf, hr⟩ := ml_zero askBefore b.arena b.asks id lp Side.Bid false b.min_ask
  simp only [OrderBook.matchWithAsks]
  rw [hL, ha, hf, hr, ← hb.minAskEq]

theorem matchWithBids_zero (b : OrderBook) (hb : BookInv b) (id : Nat) (lp : Option Nat) :
    b.matchWithBids id 0 lp = (b, [], 0) := by
  obtain ⟨hL, ha, hf, hr⟩ := ml_zero bidBefore b.arena b.bids id lp Side.Ask false b.max_bid
  simp only [OrderBook.matchWithBids]
  rw [hL, ha, hf, hr, ← hb.maxBidEq]

theorem market_zero (b : OrderBook) (hb : BookInv b) (id : Nat) (side : Side) :
    b.market id side 0 = ⟨b, [], false, 0⟩ := by
  cases side
  · have h := matchWithAsks_zero b hb id none
    simp only [OrderBook.market]
    rw [h]
    rfl
  · have h := matchWithBids_zero b hb id none
    simp only [OrderBook.market]
    rw [h]
    rfl

theorem limit_zero (b : OrderBook) (hb : BookInv b) (id : Nat) (side : Side) (price : Nat) :
    b.limit id side 0 price = ⟨b, [], false, 0⟩ := by
  cases side
  · have h := matchWithAsks_zero b hb id (some price)
    simp only [OrderBook.limit]
    rw [h]
    rfl
  · have h := matchWithBids_zero b hb id (some price)
    simp only [OrderBook.limit]
    rw [h]
    rfl

theorem executeInner_market_zero (b : OrderBook) (hb : BookInv b) (id : Nat) (side : Side) :
    b.executeInner (OrderType.Market id side 0) = (b, OrderEvent.Unfilled id) := by
  have h := market_zero b hb id side
  simp only [OrderBook.executeInner]
  rw [h]
  rfl

theorem executeInner_limit_zero (b : OrderBook) (hb : BookInv b) (id : Nat) (side : Side)
    (price : Nat) :
    b.executeInner (OrderType.Limit id side 0 price) = (b, OrderEvent.Placed id) := by
  have h := limit_zero b hb id side price
  simp only [OrderBook.executeInner]
  rw [h]
  rfl

/-- The statistics pass of `execute` changes nothing when the event is not
`Filled` or `PartiallyFilled`. -/
theorem execute_plain (b b1 : OrderBook) (cmd : OrderType) (ev : OrderEvent)
    (h : b.executeInner cmd = (b1, ev))
    (hev : match ev with
           | OrderEvent.Filled _ _ _ => False
           | OrderEvent.PartiallyFilled _ _ _ => False
           | _ => True) :
    b.execute cmd = (b1, ev) := by
  unfold OrderBook.execute
  rw [h]
  dsimp only
  by_cases hts : (!b1.track_stats) = true
  · rw [if_pos hts]
  · rw [if_neg hts]
    cases ev
    · rfl
    · rfl
    · rfl
    · exact False.elim hev
    · exact False.elim hev

/-- C10: zero-quantity commands are no-ops that still return the natural
event: on every reachable book, a `Market` of quantity 0 returns `Unfilled id`
(even when matching liquidity rests on the opposite side) and a `Limit` of
quantity 0 returns `Placed id` without inserting anything, and in both cases
the entire book state is unchanged. -/
theorem claim_C10_zero_qty_noop (b : OrderBook) (hb : Reachable b) (id : Nat)
    (side : Side) (price : Nat) :
    b.execute (OrderType.Market id side 0) = (b, OrderEvent.Unfilled id) ∧
    b.execute (OrderType.Limit id side 0 price) = (b, OrderEvent.Placed id) := by
  have hinv := reachable_inv hb
  constructor
  · exact execute_plain b b _ _ (executeInner_market_zero b hinv id side) trivial
  · exact execute_plain b b _ _ (executeInner_limit_zero b hinv id side price) trivial

/-- Witness for C10 at concrete inputs. -/
theorem claim_C10_witness :
    (OrderBook.new 2 2 false).execute (OrderType.Market 5 Side.Bid 0) =
      (OrderBook.new 2 2 false, OrderEvent.Unfilled 5) ∧
    (OrderBook.new 2 2 false).execute (OrderType.Limit 6 Side.Ask 0 7) =
      (OrderBook.new 2 2 false, OrderEvent.Placed 6) :=
  ⟨(claim_C10_zero_qty_noop (OrderBook.new 2 2 false) (Reachable.init 2 2 false)
      5 Side.Bid 7).1,
   (claim_C10_zero_qty_noop (OrderBook.new 2 2 false) (Reachable.init 2 2 false)
      6 Side.Ask 7).2⟩

/-! ## C7: `Placed` and the resting order -/

/-- The side map on which a limit order of the given side rests. -/
def ownQueues (b : OrderBook) : Side → SideMap
  | Side.Bid => b.bids
  | Side.Ask => b.asks

/-- The slot index returned by an arena insertion is not currently resting in
either side of an invariant-satisfying book. -/
theorem insert_idx_fresh (b1 : OrderBook) (id price rq : Nat) (hb1 : BookInv b1) :
    (b1.arena.insert id price rq).2 ∉ handlesOf b1.asks ++ handlesOf b1.bids := by
  rcases arena_insert_free b1.arena id price rq with ⟨hf0, hidxlen, -⟩ | hfcons
  · intro hmem
    rcases List.mem_append.mp hmem with hmem | hmem
    · rcases mem_handlesOf.mp hmem with ⟨e, he, hi⟩
      have := (liveAt_mem hb1.asksLive he) _ hi
      omega
    · rcases mem_handlesOf.mp hmem with ⟨e, he, hi⟩
      have := (liveAt_mem hb1.bidsLive he) _ hi
      omega
  · exact hb1.freeFresh _ (by rw [hfcons]; exact List.mem_cons_self _ _)

theorem limit_fills_bid (b : OrderBook) (id qty price : Nat) :
    (b.limit id Side.Bid qty price).fills = (b.matchWithAsks id qty (some price)).2.1 := by
  dsimp only [OrderBook.limit]
  by_cases hrq : 0 < (b.matchWithAsks id qty (some price)).2.2
  · rw [if_pos hrq]
  · rw [if_neg hrq]

theorem limit_fills_ask (b : OrderBook) (id qty price : Nat) :
    (b.limit id Side.Ask qty price).fills = (b.matchWithBids id qty (some price)).2.1 := by
  dsimp only [OrderBook.limit]
  by_cases hrq : 0 < (b.matchWithBids id qty (some price)).2.2
  · rw [if_pos hrq]
  · rw [if_neg hrq]

/-- A `Placed` outcome of the inner execute pins down the branch taken: the
limit call produced no fills, and the resulting state is the limit call's. -/
theorem executeInner_limit_placed (b : OrderBook) (id : Nat) (side : Side)
    (qty price : Nat)
    (hev : (b.executeInner (OrderType.Limit id side qty price)).2 =
      OrderEvent.Placed id) :
    (b.limit id side qty price).fills.isEmpty = true ∧
    (b.executeInner (OrderType.Limit id side qty price)).1 =
      (b.limit id side qty price).book := by
  simp only [OrderBook.executeInner] at hev ⊢
  by_cases h0 : (b.limit id side qty price).fills.isEmpty = true
  · rw [if_pos h0] at hev ⊢
    exact ⟨h0, rfl⟩
  · rw [if_neg h0] at hev ⊢
    by_cases h1 : (b.limit id side qty price).isPartial = true
    · rw [if_pos h1] at hev
      simp at hev
    · rw [if_neg h1] at hev
      simp at hev

/-- C7 counterexample: the original claim fails without a positivity
hypothesis on the quantity.  A zero-quantity limit on a fresh book yields a
`Placed` event, yet the order is not locatable through the arena's id index
(nothing was inserted). -/
theorem claim_C7_counterexample :
    ((OrderBook.new 0 0 false).execute (OrderType.Limit 1 Side.Bid 0 100)).2 =
      OrderEvent.Placed 1 ∧
    ((OrderBook.new 0 0 false).execute
        (OrderType.Limit 1 Side.Bid 0 100)).1.arena.get 1 = none := by
  exact ⟨by decide, by decide⟩

/-- C7 (amended: positive quantity required): for every limit command with
`qty > 0` on a reachable book whose event is `Placed`, the order is locatable
by its id through the arena's id index at the stated price, and its handle
appears exactly once across the two sides' queues, namely in the queue of the
order's own side keyed by the stated price. -/
theorem claim_C7_placed_locatable (b : OrderBook) (hb : Reachable b) (id : Nat)
    (side : Side) (qty price : Nat) (hq : 0 < qty)
    (hev : (b.execute (OrderType.Limit id side qty price)).2 =
      OrderEvent.Placed id) :
    ∃ h,
      ((b.execute (OrderType.Limit id side qty price)).1.arena.get id =
        some (price, h)) ∧
      ((handlesOf (b.execute (OrderType.Limit id side qty price)).1.asks ++
          handlesOf (b.execute (OrderType.Limit id side qty price)).1.bids).count h
        = 1) ∧
      h ∈ queueAt
        (ownQueues (b.execute (OrderType.Limit id side qty price)).1 side) price := by
  have hinv := reachable_inv hb
  rw [execute_snd] at hev
  obtain ⟨hemp, hfst⟩ := executeInner_limit_placed b id side qty price hev
  have hex : b.execute (OrderType.Limit id side qty price) =
      ((b.limit id side qty price).book, OrderEvent.Placed id) :=
    execute_plain b _ _ _ (Prod.ext_iff.mpr ⟨hfst, hev⟩) trivial
  rw [hex]
  dsimp only
  cases side
  case Bid =>
    have hm1 : BookInv (b.matchWithAsks id qty (some price)).1 :=
      inv_matchWithAsks b id qty (some price) hinv
    have hf0 : (b.matchWithAsks id qty (some price)).2.1 = [] :=
      List.isEmpty_iff.mp (limit_fills_bid b id qty price ▸ hemp)
    have hspec := match_asks_spec b id qty (some price)
    have hrq : 0 < (b.matchWithAsks id qty (some price)).2.2 := by
      have h2 := hspec.2
      rw [hf0] at h2
      simp only [fillsQty, List.map_nil, List.sum_nil] at h2
      omega
    have hnew := arena_insert_at_new (b.matchWithAsks id qty (some price)).1.arena
      id price (b.matchWithAsks id qty (some price)).2.2 hm1.freeBound
    have hfresh := insert_idx_fresh (b.matchWithAsks id qty (some price)).1
      id price (b.matchWithAsks id qty (some price)).2.2 hm1
    dsimp only [OrderBook.limit]
    rw [if_pos hrq]
    dsimp only [ownQueues]
    refine ⟨((b.matchWithAsks id qty (some price)).1.arena.insert id price
      (b.matchWithAsks id qty (some price)).2.2).2, ?_, ?_, ?_⟩
    · unfold OrderArena.get
      rw [arena_insert_map, mapLookup_mapInsert_self]
      dsimp only [Option.map]
      rw [hnew]
    · have hperm' : (handlesOf (b.matchWithAsks id qty (some price)).1.asks ++
          handlesOf (insertHandle bidBefore (b.matchWithAsks id qty (some price)).1.bids
            price ((b.matchWithAsks id qty (some price)).1.arena.insert id price
              (b.matchWithAsks id qty (some price)).2.2).2)).Perm
          ((handlesOf (b.matchWithAsks id qty (some price)).1.asks ++
            handlesOf (b.matchWithAsks id qty (some price)).1.bids) ++
            [((b.matchWithAsks id qty (some price)).1.arena.insert id price
              (b.matchWithAsks id qty (some price)).2.2).2]) := by
        have h1 := handlesOf_insertHandle bidBefore
          (b.matchWithAsks id qty (some price)).1.bids price
          ((b.matchWithAsks id qty (some price)).1.arena.insert id price
            (b.matchWithAsks id qty (some price)).2.2).2
        have h2 := List.Perm.append_left
          (handlesOf (b.matchWithAsks id qty (some price)).1.asks) h1
        rw [← List.append_assoc] at h2
        exact h2
      rw [hperm'.count_eq, List.count_append,
        List.count_eq_zero_of_not_mem hfresh]
      simp
    · rw [queueAt_insertHandle bidBefore _ price _ bidBefore_irrefl bidBefore_trans
        hm1.bidsSorted]
      exact List.mem_append_right _ (List.mem_singleton.mpr rfl)
  case Ask =>
    have hm1 : BookInv (b.matchWithBids id qty (some price)).1 :=
      inv_matchWithBids b id qty (some price) hinv
    have hf0 : (b.matchWithBids id qty (some price)).2.1 = [] :=
      List.isEmpty_iff.mp (limit_fills_ask b id qty price ▸ hemp)
    have hspec := match_bids_spec b id qty (some price)
    have hrq : 0 < (b.matchWithBids id qty (some price)).2.2 := by
      have h2 := hspec.2
      rw [hf0] at h2
      simp only [fillsQty, List.map_nil, List.sum_nil] at h2
      omega
    have hnew := arena_insert_at_new (b.matchWithBids id qty (some price)).1.arena
      id price (b.matchWithBids id qty (some price)).2.2 hm1.freeBound
    have hfresh := insert_idx_fresh (b.matchWithBids id qty (some price)).1
      id price (b.matchWithBids id qty (some price)).2.2 hm1
    have hfreshA : ((b.matchWithBids id qty (some price)).1.arena.insert id price
        (b.matchWithBids id qty (some price)).2.2).2 ∉
        handlesOf (b.matchWithBids id qty (some price)).1.asks :=
      fun hx => hfresh (List.mem_append_left _ hx)
    have hfreshB : ((b.matchWithBids id qty (some price)).1.arena.insert id price
        (b.matchWithBids id qty (some price)).2.2).2 ∉
        handlesOf (b.matchWithBids id qty (some price)).1.bids :=
      fun hx => hfresh (List.mem_append_right _ hx)
    dsimp only [OrderBook.limit]
    rw [if_pos hrq]
    dsimp only [ownQueues]
    refine ⟨((b.matchWithBids id qty (some price)).1.arena.insert id price
      (b.matchWithBids id qty (some price)).2.2).2, ?_, ?_, ?_⟩
    · unfold OrderArena.get
      rw [arena_insert_map, mapLookup_mapInsert_self]
      dsimp only [Option.map]
      rw [hnew]
    · have hperm' : (handlesOf (insertHandle askBefore
            (b.matchWithBids id qty (some price)).1.asks price
            ((b.matchWithBids id qty (some price)).1.arena.insert id price
              (b.matchWithBids id qty (some price)).2.2).2) ++
          handlesOf (b.matchWithBids id qty (some price)).1.bids).Perm
          ((handlesOf (b.matchWithBids id qty (some price)).1.asks ++
            [((b.matchWithBids id qty (some price)).1.arena.insert id price
              (b.matchWithBids id qty (some price)).2.2).2]) ++
            handlesOf (b.matchWithBids id qty (some price)).1.bids) :=
        List.Perm.append_right _ (handlesOf_insertHandle askBefore
          (b.matchWithBids id qty (some price)).1.asks price _)
      rw [hperm'.count_eq, List.count_append, List.count_append,
        List.count_eq_zero_of_not_mem hfreshA,
        List.count_eq_zero_of_not_mem hfreshB]
      simp
    · rw [queueAt_insertHandle askBefore _ price _ askBefore_irrefl askBefore_trans
        hm1.asksSorted]
      exact List.mem_append_right _ (List.mem_singleton.mpr rfl)

/-- Witness for the amended C7 at concrete inputs. -/
theorem claim_C7_witness :
    ∃ h,
      ((((OrderBook.new 2 2 false).execute (OrderType.Limit 1 Side.Bid 3 50)).1).arena.get 1 =
        some (50, h)) ∧
      ((handlesOf ((OrderBook.new 2 2 false).execute
            (OrderType.Limit 1 Side.Bid 3 50)).1.asks ++
          handlesOf ((OrderBook.new 2 2 false).execute
            (OrderType.Limit 1 Side.Bid 3 50)).1.bids).count h = 1) ∧
      h ∈ queueAt (ownQueues ((OrderBook.new 2 2 false).execute
          (OrderType.Limit 1 Side.Bid 3 50)).1 Side.Bid) 50 :=
  claim_C7_placed_locatable (OrderBook.new 2 2 false) (Reachable.init 2 2 false)
    1 Side.Bid 3 50 (by decide) (by decide)

/-! ## C4: limit-price window -/

theorem stopAsk_iff (P p : Nat) : stopHere askBefore (some P) p = true ↔ P < p := by
  simp [stopHere, askBefore]

theorem stopBid_iff (P p : Nat) : stopHere bidBefore (some P) p = true ↔ p < P := by
  simp [stopHere, bidBefore]

theorem matchWithAsks_book_asks (b : OrderBook) (id qty : Nat) (lp : Option Nat) :
    (b.matchWithAsks id qty lp).1.asks =
      (matchLoop askBefore b.arena b.asks qty id lp Side.Bid false b.min_ask).levels := rfl

theorem matchWithBids_book_bids (b : OrderBook) (id qty : Nat) (lp : Option Nat) :
    (b.matchWithBids id qty lp).1.bids =
      (matchLoop bidBefore b.arena b.bids qty id lp Side.Ask false b.max_bid).levels := rfl

theorem matchWithAsks_fills (b : OrderBook) (id qty : Nat) (lp : Option Nat) :
    (b.matchWithAsks id qty lp).2.1 =
      (matchLoop askBefore b.arena b.asks qty id lp Side.Bid false b.min_ask).fills := rfl

theorem matchWithBids_fills (b : OrderBook) (id qty : Nat) (lp : Option Nat) :
    (b.matchWithBids id qty lp).2.1 =
      (matchLoop bidBefore b.arena b.bids qty id lp Side.Ask false b.max_bid).fills := rfl

theorem limit_book_asks_bid (b : OrderBook) (id qty price : Nat) :
    (b.limit id Side.Bid qty price).book.asks =
      (b.matchWithAsks id qty (some price)).1.asks := by
  dsimp only [OrderBook.limit]
  by_cases hrq : 0 < (b.matchWithAsks id qty (some price)).2.2
  · rw [if_pos hrq]
  · rw [if_neg hrq]

theorem limit_book_bids_ask (b : OrderBook) (id qty price : Nat) :
    (b.limit id Side.Ask qty price).book.bids =
      (b.matchWithBids id qty (some price)).1.bids := by
  dsimp only [OrderBook.limit]
  by_cases hrq : 0 < (b.matchWithBids id qty (some price)).2.2
  · rw [if_pos hrq]
  · rw [if_neg hrq]

/-- C4: a limit bid at price `P` on a reachable book only consumes ask levels
priced at most `P` (each fill's price equals its maker's resting price and
level key), ask levels strictly above `P` survive verbatim, and whenever a
non-empty opposite level exists at a price within the window — in particular
exactly at `P` — a positive-quantity limit does produce at least one fill;
all three facts hold symmetrically for a limit ask. -/
theorem claim_C4_limit_price_window (b : OrderBook) (hb : Reachable b)
    (id qty P : Nat) :
    ((∀ f ∈ (b.limit id Side.Bid qty P).fills,
        ∃ p q, (p, q) ∈ b.asks ∧ p ≤ P ∧ f.price = p ∧
          ∃ h ∈ q, (arenaAt b.arena h).id = f.order_2 ∧
            (arenaAt b.arena h).price = f.price) ∧
     (∀ p q, (p, q) ∈ b.asks → P < p →
        (p, q) ∈ (b.limit id Side.Bid qty P).book.asks) ∧
     (0 < qty → (∃ e ∈ b.asks, e.2 ≠ [] ∧ e.1 ≤ P) →
        (b.limit id Side.Bid qty P).fills ≠ [])) ∧
    ((∀ f ∈ (b.limit id Side.Ask qty P).fills,
        ∃ p q, (p, q) ∈ b.bids ∧ P ≤ p ∧ f.price = p ∧
          ∃ h ∈ q, (arenaAt b.arena h).id = f.order_2 ∧
            (arenaAt b.arena h).price = f.price) ∧
     (∀ p q, (p, q) ∈ b.bids → p < P →
        (p, q) ∈ (b.limit id Side.Ask qty P).book.bids) ∧
     (0 < qty → (∃ e ∈ b.bids, e.2 ≠ [] ∧ P ≤ e.1) →
        (b.limit id Side.Ask qty P).fills ≠ [])) := by
  have hinv := reachable_inv hb
  have hmonoA := stop_mono_of_sorted askBefore b.asks (some P) askBefore_trans
    hinv.asksSorted
  have hmonoB := stop_mono_of_sorted bidBefore b.bids (some P) bidBefore_trans
    hinv.bidsSorted
  refine ⟨⟨?_, ?_, ?_⟩, ?_, ?_, ?_⟩
  · intro f hf
    rw [limit_fills_bid, matchWithAsks_fills] at hf
    rcases ml_maker askBefore b.arena b.asks qty id (some P) Side.Bid false b.min_ask
      hinv.asksLive.priceCoh f hf with ⟨p, q, hm, hs, hfp, -, -, h, hh, hid, hp⟩
    refine ⟨p, q, hm, ?_, hfp, h, hh, hid, hp⟩
    have hnp : ¬ (P < p) := fun hc => by
      rw [(stopAsk_iff P p).mpr hc] at hs
      cases hs
    omega
  · intro p q hm hlt
    rw [limit_book_asks_bid, matchWithAsks_book_asks]
    exact ml_stop_untouched askBefore b.arena b.asks qty id (some P) Side.Bid false
      b.min_ask hmonoA (p, q) hm ((stopAsk_iff P p).mpr hlt)
  · intro hq hex
    rw [limit_fills_bid, matchWithAsks_fills]
    refine ml_first_fill askBefore b.arena b.asks qty id (some P) Side.Bid false
      b.min_ask hmonoA hinv.asksLive hq ?_
    rcases hex with ⟨e, he, hne, hle⟩
    refine ⟨e, he, hne, ?_⟩
    refine Bool.eq_false_iff.mpr (fun hc => ?_)
    have := (stopAsk_iff P e.1).mp hc
    omega
  · intro f hf
    rw [limit_fills_ask, matchWithBids_fills] at hf
    rcases ml_maker bidBefore b.arena b.bids qty id (some P) Side.Ask false b.max_bid
      hinv.bidsLive.priceCoh f hf with ⟨p, q, hm, hs, hfp, -, -, h, hh, hid, hp⟩
    refine ⟨p, q, hm, ?_, hfp, h, hh, hid, hp⟩
    have hnp : ¬ (p < P) := fun hc => by
      rw [(stopBid_iff P p).mpr hc] at hs
      cases hs
    omega
  · intro p q hm hlt
    rw [limit_book_bids_ask, matchWithBids_book_bids]
    exact ml_stop_untouched bidBefore b.arena b.bids qty id (some P) Side.Ask false
      b.max_bid hmonoB (p, q) hm ((stopBid_iff P p).mpr hlt)
  · intro hq hex
    rw [limit_fills_ask, matchWithBids_fills]
    refine ml_first_fill bidBefore b.arena b.bids qty id (some P) Side.Ask false
      b.max_bid hmonoB hinv.bidsLive hq ?_
    rcases hex with ⟨e, he, hne, hle⟩
    refine ⟨e, he, hne, ?_⟩
    refine Bool.eq_false_iff.mpr (fun hc => ?_)
    have := (stopBid_iff P e.1).mp hc
    omega

/-- Witness for C4 at concrete inputs. -/
theorem claim_C4_witness :
    ((∀ f ∈ ((OrderBook.new 0 0 false).limit 1 Side.Bid 2 10).fills,
        ∃ p q, (p, q) ∈ (OrderBook.new 0 0 false).asks ∧ p ≤ 10 ∧ f.price = p ∧
          ∃ h ∈ q, (arenaAt (OrderBook.new 0 0 false).arena h).id = f.order_2 ∧
            (arenaAt (OrderBook.new 0 0 false).arena h).price = f.price) ∧
     (∀ p q, (p, q) ∈ (OrderBook.new 0 0 false).asks → 10 < p →
        (p, q) ∈ ((OrderBook.new 0 0 false).limit 1 Side.Bid 2 10).book.asks) ∧
     (0 < 2 → (∃ e ∈ (OrderBook.new 0 0 false).asks, e.2 ≠ [] ∧ e.1 ≤ 10) →
        ((OrderBook.new 0 0 false).limit 1 Side.Bid 2 10).fills ≠ [])) ∧
    ((∀ f ∈ ((OrderBook.new 0 0 false).limit 1 Side.Ask 2 10).fills,
        ∃ p q, (p, q) ∈ (OrderBook.new 0 0 false).bids ∧ 10 ≤ p ∧ f.price = p ∧
          ∃ h ∈ q, (arenaAt (OrderBook.new 0 0 false).arena h).id = f.order_2 ∧
            (arenaAt (OrderBook.new 0 0 false).arena h).price = f.price) ∧
     (∀ p q, (p, q) ∈ (OrderBook.new 0 0 false).bids → p < 10 →
        (p, q) ∈ ((OrderBook.new 0 0 false).limit 1 Side.Ask 2 10).book.bids) ∧
     (0 < 2 → (∃ e ∈ (OrderBook.new 0 0 false).bids, e.2 ≠ [] ∧ 10 ≤ e.1) →
        ((OrderBook.new 0 0 false).limit 1 Side.Ask 2 10).fills ≠ [])) :=
  claim_C4_limit_price_window (OrderBook.new 0 0 false) (Reachable.init 0 0 false) 1 2 10

/-! ## C1: price-time priority -/

/-- The fills carried by an event (empty for the fill-less variants). -/
def eventFills : OrderEvent → List FillMetadata
  | OrderEvent.PartiallyFilled _ _ fs => fs
  | OrderEvent.Filled _ _ fs => fs
  | _ => []

/-- "No worse for the taker" order on maker prices: ascending for a taker
buying against asks, descending for a taker selling against bids. -/
def priceOrd : Side → Nat → Nat → Prop
  | Side.Bid => fun x y => x ≤ y
  | Side.Ask => fun x y => y ≤ x

/-- The opposite side a taker of the given side matches against. -/
def oppQueues (b : OrderBook) : Side → SideMap
  | Side.Bid => b.asks
  | Side.Ask => b.bids

/-- The command is a taker command (`Market` or `Limit`) of the given side. -/
def cmdIsTaker : OrderType → Side → Prop
  | OrderType.Market _ s _, t => s = t
  | OrderType.Limit _ s _ _, t => s = t
  | OrderType.Cancel _, _ => False

theorem market_fills_bid (b : OrderBook) (id qty : Nat) :
    (b.market id Side.Bid qty).fills = (b.matchWithAsks id qty none).2.1 := rfl

theorem market_fills_ask (b : OrderBook) (id qty : Nat) :
    (b.market id Side.Ask qty).fills = (b.matchWithBids id qty none).2.1 := rfl

theorem eventFills_market (b : OrderBook) (id : Nat) (side : Side) (qty : Nat) :
    eventFills (b.executeInner (OrderType.Market id side qty)).2 =
      (b.market id side qty).fills := by
  simp only [OrderBook.executeInner]
  by_cases h0 : (b.market id side qty).fills.isEmpty = true
  · rw [if_pos h0]
    exact (List.isEmpty_iff.mp h0).symm
  · rw [if_neg h0]
    by_cases h1 : (b.market id side qty).isPartial = true
    · rw [if_pos h1]
      rfl
    · rw [if_neg h1]
      rfl

theorem eventFills_limit (b : OrderBook) (id : Nat) (side : Side) (qty price : Nat) :
    eventFills (b.executeInner (OrderType.Limit id side qty price)).2 =
      (b.limit id side qty price).fills := by
  simp only [OrderBook.executeInner]
  by_cases h0 : (b.limit id side qty price).fills.isEmpty = true
  · rw [if_pos h0]
    exact (List.isEmpty_iff.mp h0).symm
  · rw [if_neg h0]
    by_cases h1 : (b.limit id side qty price).isPartial = true
    · rw [if_pos h1]
      rfl
    · rw [if_neg h1]
      rfl

/-- C1: for every taker (`Market` or `Limit`) command on a reachable book, the
fills in the resulting event follow price-time priority: the sequence of fill
prices is monotone in traversal order of the opposite side (ascending for a
taker bid, descending for a taker ask), and, within each price level `P`, the
fills' maker ids are exactly the ids of a front prefix of the pre-command
resting queue at `P` (FIFO). -/
theorem claim_C1_price_time_priority (b : OrderBook) (hb : Reachable b)
    (cmd : OrderType) (s : Side) (hs : cmdIsTaker cmd s) :
    ((eventFills (b.execute cmd).2).map FillMetadata.price).Chain' (priceOrd s) ∧
    ∀ P, ((eventFills (b.execute cmd).2).filter
        (fun f => f.price == P)).map FillMetadata.order_2 =
      ((queueAt (oppQueues b s) P).take
        (((eventFills (b.execute cmd).2).filter (fun f => f.price == P)).length)).map
        (fun h => (arenaAt b.arena h).id) := by
  have hinv := reachable_inv hb
  have hkndA : (b.asks.map Prod.fst).Nodup := by
    have h1 : (b.asks.map Prod.fst).Pairwise (· < ·) := by
      refine List.Pairwise.map Prod.fst ?_ hinv.asksSorted
      intro x y hxy
      simpa [askBefore] using hxy
    exact h1.imp (fun h => Nat.ne_of_lt h)
  have hkndB : (b.bids.map Prod.fst).Nodup := by
    have h1 : (b.bids.map Prod.fst).Pairwise (fun x y => y < x) := by
      refine List.Pairwise.map Prod.fst ?_ hinv.bidsSorted
      intro x y hxy
      simpa [bidBefore] using hxy
    exact h1.imp (fun h => (Nat.ne_of_lt h).symm)
  have hhndA : (handlesOf b.asks).Nodup := (List.nodup_append.mp hinv.hndNodup).1
  have hhndB : (handlesOf b.bids).Nodup := (List.nodup_append.mp hinv.hndNodup).2.1
  have hkeyA : b.asks.Pairwise (fun x y => priceOrd Side.Bid x.1 y.1) := by
    refine hinv.asksSorted.imp ?_
    intro x y hxy
    simp only [askBefore, decide_eq_true_eq] at hxy
    simp only [priceOrd]
    omega
  have hkeyB : b.bids.Pairwise (fun x y => priceOrd Side.Ask x.1 y.1) := by
    refine hinv.bidsSorted.imp ?_
    intro x y hxy
    simp only [bidBefore, decide_eq_true_eq] at hxy
    simp only [priceOrd]
    omega
  rw [execute_snd]
  cases cmd with
  | Cancel cid => exact hs.elim
  | Market mid mside mqty =>
    cases hs
    rw [eventFills_market]
    cases s
    case Bid =>
      rw [market_fills_bid, matchWithAsks_fills]
      dsimp only [oppQueues]
      constructor
      · exact ml_price_chain askBefore b.arena b.asks mqty mid none Side.Bid false
          b.min_ask (priceOrd Side.Bid) (fun x => Nat.le_refl x) hkeyA
          hinv.asksLive.priceCoh
      · intro P
        exact ml_fifo askBefore b.arena b.asks mqty mid none Side.Bid false b.min_ask
          hkndA hhndA hinv.asksLive P
    case Ask =>
      rw [market_fills_ask, matchWithBids_fills]
      dsimp only [oppQueues]
      constructor
      · exact ml_price_chain bidBefore b.arena b.bids mqty mid none Side.Ask false
          b.max_bid (priceOrd Side.Ask) (fun x => Nat.le_refl x) hkeyB
          hinv.bidsLive.priceCoh
      · intro P
        exact ml_fifo bidBefore b.arena b.bids mqty mid none Side.Ask false b.max_bid
          hkndB hhndB hinv.bidsLive P
  | Limit lid lside lqty lprice =>
    cases hs
    rw [eventFills_limit]
    cases s
    case Bid =>
      rw [limit_fills_bid, matchWithAsks_fills]
      dsimp only [oppQueues]
      constructor
      · exact ml_price_chain askBefore b.arena b.asks lqty lid (some lprice) Side.Bid
          false b.min_ask (priceOrd Side.Bid) (fun x => Nat.le_refl x) hkeyA
          hinv.asksLive.priceCoh
      · intro P
        exact ml_fifo askBefore b.arena b.asks lqty lid (some lprice) Side.Bid false
          b.min_ask hkndA hhndA hinv.asksLive P
    case Ask =>
      rw [limit_fills_ask, matchWithBids_fills]
      dsimp only [oppQueues]
      constructor
      · exact ml_price_chain bidBefore b.arena b.bids lqty lid (some lprice) Side.Ask
          false b.max_bid (priceOrd Side.Ask) (fun x => Nat.le_refl x) hkeyB
          hinv.bidsLive.priceCoh
      · intro P
        exact ml_fifo bidBefore b.arena b.bids lqty lid (some lprice) Side.Ask false
          b.max_bid hkndB hhndB hinv.bidsLive P

/-- Witness for C1 at concrete inputs. -/
theorem claim_C1_witness :
    ((eventFills ((OrderBook.new 0 0 false).execute
          (OrderType.Market 1 Side.Bid 2)).2).map
        FillMetadata.price).Chain' (priceOrd Side.Bid) ∧
    ∀ P, ((eventFills ((OrderBook.new 0 0 false).execute
          (OrderType.Market 1 Side.Bid 2)).2).filter
        (fun f => f.price == P)).map FillMetadata.order_2 =
      ((queueAt (oppQueues (OrderBook.new 0 0 false) Side.Bid) P).take
        (((eventFills ((OrderBook.new 0 0 false).execute
            (OrderType.Market 1 Side.Bid 2)).2).filter
          (fun f => f.price == P)).length)).map
        (fun h => (arenaAt (OrderBook.new 0 0 false).arena h).id) :=
  claim_C1_price_time_priority (OrderBook.new 0 0 false) (Reachable.init 0 0 false)
    (OrderType.Market 1 Side.Bid 2) Side.Bid rfl

/-- Witness for C2: a reachable book with a bid resting at 10 and an ask
resting at 20 has both trackers set, and the claim instantiates to `10 < 20`. -/
theorem claim_C2_witness : (10 : Nat) < 20 :=
  claim_C2_book_uncrossed
    (((OrderBook.new 5 5 false).execute (OrderType.Limit 1 Side.Bid 10 10)).1.execute
        (OrderType.Limit 2 Side.Ask 5 20)).1
    (Reachable.step _ _ (Reachable.step _ _ (Reachable.init 5 5 false)))
    10 20 (by decide) (by decide)

/-- Witness for C3 on a reachable book with one resting bid and one resting
ask. -/
theorem claim_C3_witness :
    (((OrderBook.new 5 5 false).execute (OrderType.Limit 1 Side.Bid 10 10)).1.execute
        (OrderType.Limit 2 Side.Ask 5 20)).1.min_ask =
      specMinLiveAsk
        (((OrderBook.new 5 5 false).execute (OrderType.Limit 1 Side.Bid 10 10)).1.execute
          (OrderType.Limit 2 Side.Ask 5 20)).1 ∧
    (((OrderBook.new 5 5 false).execute (OrderType.Limit 1 Side.Bid 10 10)).1.execute
        (OrderType.Limit 2 Side.Ask 5 20)).1.max_bid =
      specMaxLiveBid
        (((OrderBook.new 5 5 false).execute (OrderType.Limit 1 Side.Bid 10 10)).1.execute
          (OrderType.Limit 2 Side.Ask 5 20)).1 :=
  claim_C3_trackers_exact
    (((OrderBook.new 5 5 false).execute (OrderType.Limit 1 Side.Bid 10 10)).1.execute
        (OrderType.Limit 2 Side.Ask 5 20)).1
    (Reachable.step _ _ (Reachable.step _ _ (Reachable.init 5 5 false)))

/-- Witness for C9: on the same two-sided reachable book the no-underflow part
instantiates to `10 ≤ 20`. -/
theorem claim_C9_witness : (10 : Nat) ≤ 20 :=
  (claim_C9_spread_no_underflow
    (((OrderBook.new 5 5 false).execute (OrderType.Limit 1 Side.Bid 10 10)).1.execute
        (OrderType.Limit 2 Side.Ask 5 20)).1
    (Reachable.step _ _ (Reachable.step _ _ (Reachable.init 5 5 false)))).2
    10 20 (by decide) (by decide)
